import Mathlib

/-!
# Part selector: search, selection, quantities and comma output

A shallow embedding of the pure core of the part-selector web application
(`parseCategoryAndName`, `normKR`, `parseExcelRowsToParts`, the selection
updates `toggleSelect` / `setQty` / `clearAll`, the derived values `filtered`
and `output`, and the file-import handler), followed by theorems about it.

Conventions of the embedding.

* A JavaScript string is a `List Char`.
* A JavaScript number is a `JSNum`: `NaN`, the two infinities, or a finite value
  written as integer part plus a fraction counted in units of `2^-1074` (every
  finite double is a multiple of that unit).  The two zeros are identified: no
  operation used by the program tells them apart.
* An object used as a dictionary (`selected`) is an association list holding
  its own properties in insertion order.  The identifiers of the program (`p1`
  to `p5`, and `p-<row>-<time>`) are never names of inherited properties, so
  reading a property is reading an own property.
* What the program takes from the ECMAScript runtime and what cannot be written
  down here in full (the Unicode decomposition, combining class and lower-case
  tables, and the printing of numbers with a fractional part) is a parameter of
  type `Engine`.
-/

set_option autoImplicit false

namespace PartSelector

/-- A JavaScript string, as the list of its characters. -/
abbrev Str := List Char

/-! ## Whitespace, `trim`, and the removal of whitespace -/

/-- The ECMAScript `LineTerminator` code points: what `.` does not match. -/
def isLineTerminator (c : Char) : Bool :=
  c.toNat == 0x000A || c.toNat == 0x000D || c.toNat == 0x2028 || c.toNat == 0x2029

/-- The ECMAScript `WhiteSpace` and `LineTerminator` code points: the class `\s`
of a regular expression, and what `String.prototype.trim` removes. -/
def isSpace (c : Char) : Bool :=
  c.toNat == 0x0009 || c.toNat == 0x000B || c.toNat == 0x000C || c.toNat == 0x0020 ||
  c.toNat == 0x00A0 || c.toNat == 0x1680 || (0x2000 ≤ c.toNat && c.toNat ≤ 0x200A) ||
  c.toNat == 0x202F || c.toNat == 0x205F || c.toNat == 0x3000 || c.toNat == 0xFEFF ||
  isLineTerminator c

/-- The method `String.prototype.trimStart`. -/
def trimStart (s : Str) : Str := s.dropWhile isSpace

/-- The method `String.prototype.trimEnd`. -/
def trimEnd (s : Str) : Str := (s.reverse.dropWhile isSpace).reverse

/-- The method `String.prototype.trim`. -/
def trim (s : Str) : Str := trimEnd (trimStart s)

/-- The call `s.replace(/\s+/g, "")`: every maximal run of whitespace is replaced
by the empty string, so exactly the whitespace characters disappear. -/
def removeWs (s : Str) : Str := s.filter (fun c => !isSpace c)

/-- The method `String.prototype.includes`: `q` occurs in `s` at some position. -/
def includes : Str → Str → Bool
  | [], q => q.isEmpty
  | c :: cs, q => q.isPrefixOf (c :: cs) || includes cs q

/-- The method `Array.prototype.join` on an array of strings. -/
def join (sep : Str) : List Str → Str
  | [] => []
  | [x] => x
  | x :: y :: rest => x ++ sep ++ join sep (y :: rest)

/-! ## Numbers -/

/-- The unit of the fractional part of a finite number: `fp` counts multiples of
`2^-1074`, and `fracUnit = 2^1074`. -/
def fracUnit : Nat := 1 <<< 1074

/-- A JavaScript number.  `fin ip fp` is the finite value `ip + fp / 2^1074` with
`fp < 2^1074`; integers are `fin ip 0`. -/
inductive JSNum where
  | nan
  | posInf
  | negInf
  | fin (ip : Int) (fp : Nat)
  deriving DecidableEq, Repr

namespace JSNum

/-- The integer `z` as a number. -/
def ofInt (z : Int) : JSNum := fin z 0

/-- The abstract operation `ToBoolean` on a number: `NaN` and zero are falsy. -/
def truthy : JSNum → Bool
  | nan => false
  | fin ip fp => !(ip == 0 && fp == 0)
  | _ => true

/-- The comparison `x > 0`. -/
def gtZero : JSNum → Bool
  | posInf => true
  | fin ip fp => decide (0 < ip) || (ip == 0 && fp != 0)
  | _ => false

/-- The comparison `x >= 1`. -/
def geOne : JSNum → Bool
  | posInf => true
  | fin ip _ => decide (1 ≤ ip)
  | _ => false

/-- The function `Math.floor`. -/
def floor : JSNum → JSNum
  | fin ip _ => fin ip 0
  | x => x

/-- The function `Math.max(1, x)`. -/
def maxOne : JSNum → JSNum
  | nan => nan
  | x => if x.geOne then x else fin 1 0

/-- The value is an integer (finite, without fractional part). -/
def IsInt : JSNum → Prop
  | fin _ fp => fp = 0
  | _ => False

end JSNum

/-! ### `Number(string)`: the grammar `StringNumericLiteral` and the rounding -/

/-- The number of binary digits of `n`; `fuel` bounds the recursion and any
`fuel ≥ n` is enough. -/
def bitLen : Nat → Nat → Nat
  | 0, _ => 0
  | fuel + 1, n => if n = 0 then 0 else bitLen fuel (n / 2) + 1

/-- The integer nearest to `n / d`, ties going to the even one. -/
def roundHalfEven (n d : Nat) : Nat :=
  let q := n / d
  let r := n % d
  if 2 * r < d then q
  else if d < 2 * r then q + 1
  else if q % 2 = 0 then q else q + 1

/-- The step `RoundMVResult` for a positive mathematical value `n / d`: the
magnitude of the nearest double in units of `2^-1074`, or `none` when the
result is infinite.  A magnitude with `b > 53` binary digits is rounded to a
multiple of `2^(b-53)`. -/
def roundMagnitude (n d : Nat) : Option Nat :=
  let scaled := n <<< 1074
  let b := bitLen (scaled / d + 1) (scaled / d)
  let k := if b ≤ 53 then roundHalfEven scaled d
           else roundHalfEven scaled (d <<< (b - 53)) <<< (b - 53)
  if k < 1 <<< 2098 then some k else none

/-- The double nearest to `± n / d` (`d ≠ 0`). -/
def roundToDouble (neg : Bool) (n d : Nat) : JSNum :=
  match roundMagnitude n d with
  | none => if neg then .negInf else .posInf
  | some k =>
    let q := k / fracUnit
    let r := k % fracUnit
    if neg then
      if r = 0 then .fin (-(q : Int)) 0 else .fin (-(q : Int) - 1) (fracUnit - r)
    else .fin q r

/-- The value of a digit in a radix up to 16, if the character is one. -/
def digitValue (radix : Nat) (c : Char) : Option Nat :=
  let v :=
    if '0'.toNat ≤ c.toNat ∧ c.toNat ≤ '9'.toNat then some (c.toNat - '0'.toNat)
    else if 'a'.toNat ≤ c.toNat ∧ c.toNat ≤ 'f'.toNat then some (c.toNat - 'a'.toNat + 10)
    else if 'A'.toNat ≤ c.toNat ∧ c.toNat ≤ 'F'.toNat then some (c.toNat - 'A'.toNat + 10)
    else none
  v.bind fun n => if n < radix then some n else none

/-- The value of a non-empty run of digits, `none` if a character is no digit. -/
def digitsValue (radix : Nat) : Str → Nat → Option Nat
  | [], acc => some acc
  | c :: cs, acc => (digitValue radix c).bind fun v => digitsValue radix cs (acc * radix + v)

/-- `DecimalDigits`, possibly empty: its value and its length. -/
def decimalDigits (s : Str) : Option (Nat × Nat) :=
  (digitsValue 10 s 0).map fun v => (v, s.length)

/-- `ExponentPart` without its indicator: an optionally signed, non-empty run of
decimal digits. -/
def signedInteger (s : Str) : Option Int :=
  match s with
  | '+' :: ds => if ds = [] then none else (digitsValue 10 ds 0).map fun v => (v : Int)
  | '-' :: ds => if ds = [] then none else (digitsValue 10 ds 0).map fun v => -(v : Int)
  | ds => if ds = [] then none else (digitsValue 10 ds 0).map fun v => (v : Int)

/-- The mathematical value of `StrUnsignedDecimalLiteral` other than `Infinity`,
as a fraction `n / d`: digits, an optional `.` with digits, an optional exponent;
at least one digit before the exponent. -/
def unsignedDecimal (s : Str) : Option (Nat × Nat) :=
  let mant := s.takeWhile fun c => !(c == 'e' || c == 'E')
  let rest := s.dropWhile fun c => !(c == 'e' || c == 'E')
  let intPart := mant.takeWhile fun c => c != '.'
  let afterInt := mant.dropWhile fun c => c != '.'
  let fracPart := afterInt.drop 1
  let expo : Option Int := if rest = [] then some 0 else signedInteger (rest.drop 1)
  if intPart = [] ∧ fracPart = [] then none
  else
    (decimalDigits intPart).bind fun (iv, _) =>
    (decimalDigits fracPart).bind fun (fv, fl) =>
    expo.map fun e =>
      let n := iv * 10 ^ fl + fv
      if 0 ≤ e then (n * 10 ^ e.toNat, 10 ^ fl) else (n, 10 ^ fl * 10 ^ (-e).toNat)

/-- The grammar `StrDecimalLiteral`, rounded to a double. -/
def strDecimalLiteral (s : Str) : JSNum :=
  let neg := s.head? == some '-'
  let body := if s.head? == some '-' || s.head? == some '+' then s.drop 1 else s
  if body = "Infinity".toList then (if neg then .negInf else .posInf)
  else
    match unsignedDecimal body with
    | none => .nan
    | some (n, d) => if n = 0 then .fin 0 0 else roundToDouble neg n d

/-- The grammar `NonDecimalIntegerLiteral`: `0x`, `0o` or `0b` and digits. -/
def nonDecimalLiteral (s : Str) : Option JSNum :=
  let radix : Option Nat :=
    match s with
    | '0' :: 'x' :: _ => some 16
    | '0' :: 'X' :: _ => some 16
    | '0' :: 'o' :: _ => some 8
    | '0' :: 'O' :: _ => some 8
    | '0' :: 'b' :: _ => some 2
    | '0' :: 'B' :: _ => some 2
    | _ => none
  radix.map fun r =>
    if s.drop 2 = [] then .nan
    else match digitsValue r (s.drop 2) 0 with
      | none => .nan
      | some n => if n = 0 then .fin 0 0 else roundToDouble false n 1

/-- The abstract operation `StringToNumber`: surrounding whitespace is ignored,
the empty string is `0`, and what is no numeric literal is `NaN`. -/
def stringToNumber (s : Str) : JSNum :=
  let t := trim s
  if t = [] then .fin 0 0
  else match nonDecimalLiteral t with
    | some v => v
    | none => strDecimalLiteral t

/-! ## The runtime parameter -/

/-- What the program takes from the ECMAScript runtime as data: Unicode tables
and the printing of numbers with a fractional part. -/
structure Engine where
  /-- The full compatibility decomposition of one code point (the property
  `Decomposition_Mapping` applied until nothing decomposes, Hangul syllables
  included); a code point without decomposition is mapped to itself. -/
  decomp : Char → Str
  /-- The property `Canonical_Combining_Class`. -/
  ccc : Char → Nat
  /-- The lower-case mapping of a code point standing between the text `before`
  and the text `after` (the mapping depends on the context for final sigma). -/
  lowerMap : (before : Str) → Char → (after : Str) → Str
  /-- The result of `Number::toString` on a finite number `ip + fp / 2^1074`
  that is not an integer (`fp ≠ 0`). -/
  formatNumber : Int → Nat → Str

/-- One step of the canonical ordering algorithm: the character `c` is put in
front of an ordered text and exchanged with the following characters as long as
the pair is reorderable, that is `ccc c > ccc d > 0`. -/
def placeMark (E : Engine) (c : Char) : Str → Str
  | [] => [c]
  | d :: ds =>
    if E.ccc d ≠ 0 ∧ E.ccc d < E.ccc c then d :: placeMark E c ds else c :: d :: ds

/-- The canonical ordering algorithm: combining marks are sorted by combining
class, stably, within every run between two starters. -/
def canonicalOrder (E : Engine) : Str → Str
  | [] => []
  | c :: cs => placeMark E c (canonicalOrder E cs)

/-- The call `s.normalize("NFKD")`: full compatibility decomposition followed
by canonical ordering. -/
def normalizeNFKD (E : Engine) (s : Str) : Str :=
  canonicalOrder E (s.flatMap E.decomp)

/-- The lower-case mappings of the characters of a text, each taken in its
context; `before` is the text already passed. -/
def lowerFrom (E : Engine) : Str → Str → Str
  | _, [] => []
  | before, c :: after => E.lowerMap before c after ++ lowerFrom E (before ++ [c]) after

/-- The method `String.prototype.toLowerCase`. -/
def toLowerCase (E : Engine) (s : Str) : Str := lowerFrom E [] s

/-- The function `normKR` of the source: `(s || "")`, NFKD, lower case, and all
whitespace removed.  `none` stands for `null` and `undefined`. -/
def normKR (E : Engine) (s : Option Str) : Str :=
  removeWs (toLowerCase E (normalizeNFKD E (s.getD [])))

/-- The first success of `f k`, `f (k-1)`, ..., `f lo`: a search from the top
down, as for the order in which a greedy quantifier gives characters back. -/
def descend {α : Type} (f : Nat → Option α) (lo : Nat) : Nat → Option α
  | 0 => if lo = 0 then f 0 else none
  | k + 1 => if lo ≤ k + 1 then (f (k + 1)).orElse fun _ => descend f lo k else none

/-- The least integer that `Number::toString` does not print with all its
digits, `2^54 + 8`: the numeral `18014398509481990` is shorter and rounds to it.
Below it no shorter numeral rounds to an integer double: up to `2^54` the
doubles are at most 2 apart, so only odd integers round to another one, and
from `2^54` to here no multiple of ten lies close enough. -/
def exactPrintBound : Nat := 2 ^ 54 + 8

/-- The number of decimal digits of `x`. -/
def decimalLength (x : Nat) : Nat := (Nat.toDigits 10 x).length

/-- The integer `y` converts to the double `x`. -/
def roundsTo (y x : Nat) : Bool := decide (roundToDouble false y 1 = .fin x 0)

/-- Among the multiples of `10^j`, the one nearest to `x` that converts to the
double `x`, if there is one; of two equally near, the one with the even
quotient. -/
def shortestAt (x j : Nat) : Option Nat :=
  let p := 10 ^ j
  let lo := x / p * p
  let hi := lo + p
  match roundsTo lo x, roundsTo hi x with
  | true, true =>
    if x - lo < hi - x then some lo
    else if hi - x < x - lo then some hi
    else if (lo / p) % 2 = 0 then some lo else some hi
  | true, false => some lo
  | false, true => some hi
  | false, false => none

/-- The integer that `Number::toString` prints for the integer double `x`: of
the integers that convert to `x`, one with the fewest significant digits, and
among those the nearest to `x`. -/
def shortestDecimal (x : Nat) : Nat :=
  (descend (shortestAt x) 0 (decimalLength x)).getD x

/-- The text of `Number::toString` for a positive integer double `x`: all the
digits of the integer printed when there are at most 21, and otherwise the
significant digits, with a point after the first, and the exponent. -/
def printInteger (x : Nat) : Str :=
  let y := shortestDecimal x
  let digits := Nat.toDigits 10 y
  if digits.length ≤ 21 then digits
  else
    let sig := (digits.reverse.dropWhile (· == '0')).reverse
    let mantissa := if sig.length ≤ 1 then sig else sig.take 1 ++ ['.'] ++ sig.drop 1
    mantissa ++ "e+".toList ++ Nat.toDigits 10 (digits.length - 1)

/-- The operation `Number::toString` in radix 10.  An integer below
`exactPrintBound` is printed with all its digits, a larger one by
`printInteger`; the text of a number with a fractional part is taken from the
engine. -/
def numberToString (E : Engine) : JSNum → Str
  | .nan => "NaN".toList
  | .posInf => "Infinity".toList
  | .negInf => "-Infinity".toList
  | .fin ip fp =>
    if fp = 0 then
      (if ip < 0 then ['-'] else []) ++
        (if ip.natAbs < exactPrintBound then Nat.toDigits 10 ip.natAbs else printInteger ip.natAbs)
    else E.formatNumber ip fp

/-! ## Cell values -/

/-- A JavaScript value as it stands in a cell of the decoded sheet or is handed
to `setQty`. -/
inductive Cell where
  | undefined
  | null
  | bool (b : Bool)
  | num (n : JSNum)
  | str (s : Str)
  deriving DecidableEq

namespace Cell

/-- The abstract operation `ToBoolean`. -/
def truthy : Cell → Bool
  | undefined => false
  | null => false
  | bool b => b
  | num n => n.truthy
  | str s => !s.isEmpty

/-- The call `String(v)`. -/
def toStr (E : Engine) : Cell → Str
  | undefined => "undefined".toList
  | null => "null".toList
  | bool b => if b then "true".toList else "false".toList
  | num n => numberToString E n
  | str s => s

/-- The call `Number(v)`. -/
def toNumber : Cell → JSNum
  | undefined => .nan
  | null => .fin 0 0
  | bool b => if b then .fin 1 0 else .fin 0 0
  | num n => n
  | str s => stringToNumber s

end Cell

/-- The element `row[i]` of an array: `undefined` outside the array. -/
def cellAt (row : List Cell) (i : Int) : Cell :=
  if i < 0 then .undefined else row.getD i.toNat .undefined

/-! ## Regular expressions

The fragment of ECMAScript patterns the source uses: a sequence of anchors,
single characters or classes, greedy `*` and `+` over a class, and capture
groups, matched by backtracking. -/

/-- One element of a pattern. -/
inductive Pat where
  | bol
  | eol
  | one (p : Char → Bool)
  | star (p : Char → Bool)
  | plus (p : Char → Bool)
  | openGroup
  | closeGroup

/-- Matching a pattern at one position.  `pos` is the index of the position,
`rest` the input from there, `opened` the inputs at which the groups still open
began, `caps` the captures closed so far, last first. -/
def run : List Pat → Nat → Str → List Str → List Str → Option (List Str)
  | [], _, _, _, caps => some caps.reverse
  | .bol :: ps, pos, rest, opened, caps =>
    if pos = 0 then run ps pos rest opened caps else none
  | .eol :: ps, pos, rest, opened, caps =>
    if rest = [] then run ps pos rest opened caps else none
  | .one _ :: _, _, [], _, _ => none
  | .one p :: ps, pos, c :: rest, opened, caps =>
    if p c then run ps (pos + 1) rest opened caps else none
  | .star p :: ps, pos, rest, opened, caps =>
    descend (fun n => run ps (pos + n) (rest.drop n) opened caps) 0 (rest.takeWhile p).length
  | .plus p :: ps, pos, rest, opened, caps =>
    descend (fun n => run ps (pos + n) (rest.drop n) opened caps) 1 (rest.takeWhile p).length
  | .openGroup :: ps, pos, rest, opened, caps => run ps pos rest (rest :: opened) caps
  | .closeGroup :: ps, pos, rest, opened, caps =>
    match opened with
    | [] => none
    | start :: opened => run ps pos rest opened (start.take (start.length - rest.length) :: caps)

/-- The method `RegExp.prototype.exec` without the `g` flag, from index `pos`:
the match at the first position where the pattern matches, as its captures. -/
def execFrom (ps : List Pat) : Nat → Str → Option (List Str)
  | pos, [] => run ps pos [] [] []
  | pos, c :: cs => (run ps pos (c :: cs) [] []).orElse fun _ => execFrom ps (pos + 1) cs

/-- The pattern of `parseCategoryAndName`, written `^\s*\[([^\]]+)\]\s*(.*)$` in
the source. -/
def tagPattern : List Pat :=
  [.bol, .star isSpace, .one (· == '['), .openGroup, .plus (· != ']'), .closeGroup,
   .one (· == ']'), .star isSpace, .openGroup, .star (fun c => !isLineTerminator c),
   .closeGroup, .eol]

/-! ## Labels -/

/-- The default category of the source, `"기타"`: the sentinel for a label
without category. -/
def defaultCategory : Str := "기타".toList

/-- The pseudo-category of the source, `"전체"`: all categories. -/
def allCategory : Str := "전체".toList

/-- The result of `parseCategoryAndName`. -/
structure Label where
  category : Str
  name : Str
  deriving DecidableEq

/-- The expression `String(raw ?? "")`. -/
def labelText (E : Engine) : Cell → Str
  | .undefined => []
  | .null => []
  | v => v.toStr E

/-- The function `parseCategoryAndName` of the source. -/
def parseCategoryAndName (E : Engine) (raw : Cell) : Label :=
  let str := trim (labelText E raw)
  match execFrom tagPattern 0 str with
  | some m =>
    let category := trim (m.getD 0 [])
    let name := trim (m.getD 1 [])
    { category := if category ≠ [] then category else defaultCategory,
      name := if name ≠ [] then name else category }
  | none => { category := defaultCategory, name := str }

/-! ## The catalog, the selection and the derived values -/

/-- The header words for the name column, `NAME_HEADERS` in the source. -/
def NAME_HEADERS : List Str :=
  ["name".toList, "part".toList, "partname".toList, "item".toList, "품명".toList,
   "이름".toList, "부품".toList, "부품명".toList]

/-- The header words for the quantity column, `QTY_HEADERS` in the source. -/
def QTY_HEADERS : List Str := ["qty".toList, "quantity".toList, "수량".toList]

/-- The sample list `SAMPLE_PARTS_RAW` of the source: identifier and raw label. -/
def SAMPLE_PARTS_RAW : List (Str × Str) :=
  [("p1".toList, "[동물] 강아지".toList), ("p2".toList, "[동물] 고양이".toList),
   ("p3".toList, "[동물] 다람쥐".toList), ("p4".toList, "[식물] 토마토".toList),
   ("p5".toList, "[식물] 상추".toList)]

/-- An item of the catalog, an element of the state `parts`. -/
structure Part where
  id : Str
  name : Str
  category : Str
  deriving DecidableEq

/-- A record produced by `parseExcelRowsToParts`: an item and the optional
property `_qty`. -/
structure Rec where
  id : Str
  name : Str
  category : Str
  qty : Option JSNum
  deriving DecidableEq

/-- The state `selected`: an object mapping identifiers to quantities. -/
abbrev Sel := List (Str × JSNum)

/-- The property read `selected[id]`; `none` is `undefined`. -/
def selGet : Sel → Str → Option JSNum
  | [], _ => none
  | (k, v) :: rest, id => if k = id then some v else selGet rest id

/-- The property write `selected[id] = v` on a copy: an existing property keeps
its place, a new one is added at the end. -/
def selSet : Sel → Str → JSNum → Sel
  | [], id, v => [(id, v)]
  | (k, w) :: rest, id, v => if k = id then (k, v) :: rest else (k, w) :: selSet rest id v

/-- The statement `delete selected[id]` on a copy. -/
def selDelete (sel : Sel) (id : Str) : Sel := sel.filter fun kv => kv.1 ≠ id

/-- The updater of `toggleSelect(id)`. -/
def toggleSelect (id : Str) (prev : Sel) : Sel :=
  let next := prev
  match selGet next id with
  | some v => if v.truthy then selDelete next id else selSet next id (.fin 1 0)
  | none => selSet next id (.fin 1 0)

/-- The quantity computed by `setQty`: `Math.max(1, Math.floor(Number(qty) || 1))`. -/
def setQtyValue (qty : Cell) : JSNum :=
  let n := qty.toNumber
  JSNum.maxOne (JSNum.floor (if n.truthy then n else .fin 1 0))

/-- The updater of `setQty(id, qty)`. -/
def setQty (id : Str) (qty : Cell) (prev : Sel) : Sel := selSet prev id (setQtyValue qty)

/-- The updater of `clearAll()`. -/
def clearAll (_prev : Sel) : Sel := []

/-- The test `selected[p.id] && selected[p.id] > 0` of `output`. -/
def isSelected (selected : Sel) (p : Part) : Bool :=
  match selGet selected p.id with
  | some q => q.truthy && q.gtZero
  | none => false

/-- The text of one selected item in `output`: the name, followed by `x` and the
quantity unless the quantity is `1`. -/
def entryText (E : Engine) (selected : Sel) (p : Part) : Str :=
  match selGet selected p.id with
  | some qty => if qty = .fin 1 0 then p.name else p.name ++ ['x'] ++ numberToString E qty
  | none => p.name ++ ['x'] ++ "undefined".toList

/-- The derived value `output` of the source. -/
def output (E : Engine) (parts : List Part) (selected : Sel) : Str :=
  let items := (parts.filter (isSelected selected)).map (entryText E selected)
  removeWs (join [','] items)

/-- The derived value `filtered` of the source. -/
def filtered (E : Engine) (query : Str) (parts : List Part) (activeCategory : Str) : List Part :=
  let q := normKR E (some (trim query))
  parts.filter fun p =>
    let catOk := activeCategory == allCategory || p.category == activeCategory
    let txtOk := q.isEmpty || includes (normKR E (some p.name)) q
    catOk && txtOk

/-! ## Reading the sheet -/

/-- The loop of `parseExcelRowsToParts` over the header cells: `i` is the index
of the next cell, the pair is `(nameIdx, qtyIdx)`. -/
def scanHeaders : List Str → Nat → Int × Int → Int × Int
  | [], _, idx => idx
  | h :: hs, i, (nameIdx, qtyIdx) =>
    let nameIdx := if nameIdx = -1 ∧ h ∈ NAME_HEADERS then (i : Int) else nameIdx
    let qtyIdx := if qtyIdx = -1 ∧ h ∈ QTY_HEADERS then (i : Int) else qtyIdx
    scanHeaders hs (i + 1) (nameIdx, qtyIdx)

/-- The identifier of the record of row `r`, read at clock value `t`. -/
def rowId (r t : Nat) : Str :=
  "p-".toList ++ Nat.toDigits 10 r ++ ['-'] ++ Nat.toDigits 10 t

/-- The loop of `parseExcelRowsToParts` over the data rows: `r` is the index of
the next row, `out` the records pushed so far; `now r` is the value of
`Date.now()` while row `r` is handled. -/
def collectRows (E : Engine) (now : Nat → Nat) (nameIdx qtyIdx : Int) :
    List (List Cell) → Nat → List Rec → List Rec
  | [], _, out => out
  | row :: rest, r, out =>
    let rawName := cellAt row nameIdx
    let l := parseCategoryAndName E rawName
    if l.name = [] then collectRows E now nameIdx qtyIdx rest (r + 1) out
    else
      let qty : Option JSNum :=
        if qtyIdx ≠ -1 then
          let q := (cellAt row qtyIdx).toNumber
          if q ≠ .nan ∧ q.gtZero then some q.floor else none
        else none
      collectRows E now nameIdx qtyIdx rest (r + 1)
        (out ++ [{ id := rowId r (now r), name := l.name, category := l.category, qty := qty }])

/-- The function `parseExcelRowsToParts` of the source. -/
def parseExcelRowsToParts (E : Engine) (now : Nat → Nat) (rows : List (List Cell)) : List Rec :=
  match rows with
  | [] => []
  | row0 :: _ =>
    let headerRow := row0.map fun h => trim (if h.truthy then h.toStr E else [])
    let lowerHeaders := headerRow.map (toLowerCase E)
    let idx := scanHeaders lowerHeaders 0 (-1, -1)
    let hasHeader := idx.1 ≠ -1 ∨ idx.2 ≠ -1
    let nameIdx := if hasHeader then idx.1 else 0
    let start := if hasHeader then 1 else 0
    collectRows E now nameIdx idx.2 (rows.drop start) start []

/-! ## The application state and the import -/

/-- The state of the component. -/
structure State where
  parts : List Part
  selected : Sel
  query : Str
  activeCategory : Str
  deriving DecidableEq

/-- The initial state: the sample catalog, nothing selected. -/
def initialState (E : Engine) : State :=
  { parts := SAMPLE_PARTS_RAW.map fun (id, name) =>
      let l := parseCategoryAndName E (.str name)
      { id := id, name := l.name, category := l.category },
    selected := [],
    query := [],
    activeCategory := allCategory }

/-- The two alerts of the import handler. -/
inductive Notice where
  | emptyImport
  | decodeFailure
  deriving DecidableEq

/-- The object `initialSelected` built by the import handler. -/
def initialSelected (parsed : List Rec) : Sel :=
  parsed.foldl (fun acc p =>
    match p.qty with
    | some q => if q.truthy && q.gtZero then selSet acc p.id q else acc
    | none => acc) []

/-- The handler `reader.onload` of `handleFile`: `decoded` is the grid returned by
the sheet decoder, `none` when the decoder throws.  The result is the next state
and the alert shown, if any. -/
def onLoad (E : Engine) (now : Nat → Nat) (decoded : Option (List (List Cell))) (st : State) :
    State × Option Notice :=
  match decoded with
  | none => (st, some .decodeFailure)
  | some rows =>
    let parsed := parseExcelRowsToParts E now rows
    if parsed.length = 0 then (st, some .emptyImport)
    else
      ({ parts := parsed.map fun p => { id := p.id, name := p.name, category := p.category },
         selected := initialSelected parsed,
         query := [],
         activeCategory := allCategory }, none)

/-- One user action on the state. -/
inductive Action where
  | importRows (now : Nat → Nat) (rows : List (List Cell))
  | toggle (id : Str)
  | setQuantity (id : Str) (qty : Cell)
  | clear

/-- The state after an action. -/
def step (E : Engine) (st : State) : Action → State
  | .importRows now rows => (onLoad E now (some rows) st).1
  | .toggle id => { st with selected := toggleSelect id st.selected }
  | .setQuantity id qty => { st with selected := setQty id qty st.selected }
  | .clear => { st with selected := clearAll st.selected }

/-- An action the interface offers in a state: `toggle` and `setQuantity` are
attached to the items of the current catalog. -/
def Action.Allowed (st : State) : Action → Prop
  | .toggle id => ∃ p ∈ st.parts, p.id = id
  | .setQuantity id _ => ∃ p ∈ st.parts, p.id = id
  | _ => True

/-- The states reachable from the initial state. -/
inductive Reachable (E : Engine) : State → Prop where
  | init : Reachable E (initialState E)
  | step (st : State) (a : Action) : Reachable E st → a.Allowed st → Reachable E (step E st a)

/-! ## A reference engine

The tables restricted to what the examples below use: the algorithmic
decomposition of Hangul syllables, the compatibility decomposition of the
spaces and of the full-width forms of ASCII, the combining classes of three
marks, and the lower-case mapping of the ASCII letters.  Every other code point
is taken as a starter without decomposition and without case. -/

/-- The decomposition of the reference engine. -/
def refDecomp (c : Char) : Str :=
  let n := c.toNat
  if 0xAC00 ≤ n ∧ n ≤ 0xD7A3 then
    let s := n - 0xAC00
    let l := Char.ofNat (0x1100 + s / 588)
    let v := Char.ofNat (0x1161 + (s % 588) / 28)
    if s % 28 = 0 then [l, v] else [l, v, Char.ofNat (0x11A7 + s % 28)]
  else if n = 0x00A0 ∨ (0x2000 ≤ n ∧ n ≤ 0x200A) ∨ n = 0x202F ∨ n = 0x205F ∨ n = 0x3000 then [' ']
  else if 0xFF01 ≤ n ∧ n ≤ 0xFF5E then [Char.ofNat (n - 0xFEE0)]
  else [c]

/-- The combining classes of the reference engine: grave and acute accent above
(230), dot below (220). -/
def refCcc (c : Char) : Nat :=
  if c.toNat = 0x0300 ∨ c.toNat = 0x0301 then 230
  else if c.toNat = 0x0323 then 220
  else 0

/-- The lower-case mapping of the reference engine. -/
def refLower (c : Char) : Str :=
  if 'A'.toNat ≤ c.toNat ∧ c.toNat ≤ 'Z'.toNat then [Char.ofNat (c.toNat + 32)] else [c]

/-- The reference engine.  The examples print no number with a fractional part,
and the text of such a number is left empty. -/
def refEngine : Engine :=
  { decomp := refDecomp,
    ccc := refCcc,
    lowerMap := fun _ c _ => refLower c,
    formatNumber := fun _ _ => [] }

/-! ## Predicates used in the statements -/

/-- The values `setQty` can store: an integer that is at least `1`, or `Infinity`. -/
def JSNum.IsQuantity (q : JSNum) : Prop :=
  q = .posInf ∨ ∃ n : Nat, 1 ≤ n ∧ q = .fin n 0

/-- The invariant of the selection: every property of `selected` is the
identifier of an item of `parts`, and its value is a quantity. -/
def State.SelectionOk (st : State) : Prop :=
  ∀ k q, selGet st.selected k = some q → (∃ p ∈ st.parts, p.id = k) ∧ q.IsQuantity

/-! ## The sheet reader in closed form, and as the specification words it -/

/-- The index of the first element satisfying `p`, if there is one. -/
def firstIndex {α : Type} (p : α → Bool) : List α → Option Nat
  | [] => none
  | x :: xs => if p x then some 0 else (firstIndex p xs).map (· + 1)

/-- The trimmed, lower-cased text of a header cell. -/
def headerKey (E : Engine) (h : Cell) : Str :=
  toLowerCase E (trim (if h.truthy then h.toStr E else []))

/-- The first column of the header row whose text is a name header. -/
def nameColumn (E : Engine) (row0 : List Cell) : Option Nat :=
  firstIndex (fun h => decide (headerKey E h ∈ NAME_HEADERS)) row0

/-- The first column of the header row whose text is a quantity header. -/
def qtyColumn (E : Engine) (row0 : List Cell) : Option Nat :=
  firstIndex (fun h => decide (headerKey E h ∈ QTY_HEADERS)) row0

/-- One pass of the row loop of the source in closed form: what it pushes for a
row, without the identifier, with the columns given as options. -/
def rowRecord (E : Engine) (nameCol qtyCol : Option Nat) (row : List Cell) :
    Option (Str × Str × Option JSNum) :=
  let nameCell : Cell :=
    match nameCol.bind (fun j => row.get? j) with
    | some c => c
    | none => .str []
  let l := parseCategoryAndName E nameCell
  if l.name = [] then none
  else
    some (l.category, l.name,
      match qtyCol.bind (fun j => row.get? j) with
      | some c => if c.toNumber.gtZero then some c.toNumber.floor else none
      | none => none)

/-- The function `parseExcelRowsToParts` in closed form, without the
identifiers. -/
def recordsOf (E : Engine) (rows : List (List Cell)) : List (Str × Str × Option JSNum) :=
  match rows with
  | [] => []
  | row0 :: rest =>
    if nameColumn E row0 = none ∧ qtyColumn E row0 = none then
      (row0 :: rest).filterMap (rowRecord E (some 0) none)
    else rest.filterMap (rowRecord E (nameColumn E row0) (qtyColumn E row0))

/-- The quantity hint for a parsed number, in the words of the specification:
a hint exists when the number is above zero; it is the integer part of a finite
number, and `Infinity` for `Infinity`. -/
def hintOf : JSNum → Option JSNum
  | .posInf => some .posInf
  | .fin ip fp => if 0 < ip ∨ (ip = 0 ∧ fp ≠ 0) then some (.fin ip 0) else none
  | _ => none

/-- The record of one data row in the words of the specification: category,
name and optional quantity hint; `none` when the name is empty.  A missing name
cell counts as the empty text; a missing quantity cell gives no hint. -/
def ingestSpecRow (E : Engine) (nameCol : Nat) (qtyCol : Option Nat) (row : List Cell) :
    Option (Str × Str × Option JSNum) :=
  let nameCell : Cell := (row.get? nameCol).getD (.str [])
  let l := parseCategoryAndName E nameCell
  if l.name = [] then none
  else
    some (l.category, l.name,
      match qtyCol with
      | some j =>
        match row.get? j with
        | some c => hintOf c.toNumber
        | none => none
      | none => none)

/-- The sequence `ingest(rows)` in the words of the specification, without the
identifiers.  No rows give no records.  Without a name header and without a
quantity header every row is a data row and the names are in column 0.  With a
name header the data rows are those after row 0 and the names are in its
column.  The specification is silent (`none`) on a header row with a quantity
header and no name header. -/
def ingestSpec (E : Engine) (rows : List (List Cell)) :
    Option (List (Str × Str × Option JSNum)) :=
  match rows with
  | [] => some []
  | row0 :: rest =>
    match nameColumn E row0, qtyColumn E row0 with
    | none, none => some ((row0 :: rest).filterMap (ingestSpecRow E 0 none))
    | some j, q => some (rest.filterMap (ingestSpecRow E j q))
    | none, some _ => none

/-- The index of a column as the source stores it: `-1` when absent. -/
def idxOf : Option Nat → Int
  | some j => j
  | none => -1

/-! ## The output as the specification words it -/

/-- The quantity as a positive integer, when it is one. -/
def JSNum.toPosNat? : JSNum → Option Nat
  | .fin ip fp => if 0 < ip ∧ fp = 0 then some ip.toNat else none
  | _ => none

/-- The fragment of one item in the words of the specification: nothing unless
the item has a quantity above zero; the name without whitespace when the
quantity is 1; otherwise that name, `x`, and the quantity in decimal digits. -/
def renderSpecEntry (selected : Sel) (p : Part) : Option Str :=
  ((selGet selected p.id).bind JSNum.toPosNat?).map fun n =>
    removeWs p.name ++ (if n = 1 then [] else 'x' :: Nat.toDigits 10 n)

/-- The output in the words of the specification: the fragments of the items in
catalog order, joined by commas. -/
def renderSpec (parts : List Part) (selected : Sel) : Str :=
  join [','] (parts.filterMap (renderSpecEntry selected))

/-- Every positive quantity of an item of the catalog is an integer below
`exactPrintBound`. -/
def SafeQuantities (parts : List Part) (selected : Sel) : Prop :=
  ∀ p ∈ parts, ∀ q, selGet selected p.id = some q → q.gtZero = true →
    ∃ n : Nat, n < exactPrintBound ∧ q = .fin n 0

/-! ## The label pattern, read directly -/

/-- What the pattern of `parseCategoryAndName` matches on a text that does not
begin with whitespace, and its two captures: `[`, a non-empty run `c` without
`]`, `]`, then whitespace and a rest without line terminator. -/
def tagMatch (s : Str) : Option (Str × Str) :=
  match s with
  | '[' :: t =>
    match t.dropWhile (· != ']') with
    | ']' :: r =>
      if t.takeWhile (· != ']') ≠ [] ∧ (r.dropWhile isSpace).all (fun c => !isLineTerminator c)
      then some (t.takeWhile (· != ']'), r.dropWhile isSpace) else none
    | _ => none
  | _ => none

/-! ## Assumptions on the Unicode tables -/

/-- The tables treat whitespace as Unicode does.  A whitespace character
decomposes into whitespace starters, its lower-case mapping is whitespace, and
the lower-case mapping of a character does not depend on whitespace at the far
ends of its context (the context of final sigma looks for cased letters only). -/
structure Engine.SpaceNeutral (E : Engine) : Prop where
  decomp_space : ∀ c, isSpace c = true → ∀ d ∈ E.decomp c, isSpace d = true ∧ E.ccc d = 0
  lower_space : ∀ b c a, isSpace c = true → ∀ d ∈ E.lowerMap b c a, isSpace d = true
  lower_context : ∀ (w₁ w₂ b a : Str) (c : Char), (∀ x ∈ w₁, isSpace x = true) →
    (∀ x ∈ w₂, isSpace x = true) → E.lowerMap (w₁ ++ b) c (a ++ w₂) = E.lowerMap b c a

/-- No two adjacent characters of the text are a reorderable pair: the text is
left unchanged by the canonical ordering algorithm. -/
def inCanonicalOrder (E : Engine) : Str → Bool
  | [] => true
  | [_] => true
  | c :: d :: rest =>
    !(E.ccc d != 0 && decide (E.ccc d < E.ccc c)) && inCanonicalOrder E (d :: rest)

/-- The tables are closed as those of Unicode are: the characters of a full
decomposition do not decompose further, the lower-case mapping of a character
that does not decompose consists of such characters, and the characters of a
lower-case mapping are their own lower-case mapping in every context. -/
structure Engine.Stable (E : Engine) : Prop where
  decomp_decomp : ∀ c, ∀ d ∈ E.decomp c, E.decomp d = [d]
  decomp_lower : ∀ b c a, E.decomp c = [c] → ∀ d ∈ E.lowerMap b c a, E.decomp d = [d]
  lower_lower : ∀ b c a, ∀ d ∈ E.lowerMap b c a, ∀ b' a', E.lowerMap b' d a' = [d]

/-! ## Lemmas on the selection object -/

theorem selGet_selSet (sel : Sel) (id k : Str) (v : JSNum) :
    selGet (selSet sel id v) k = if k = id then some v else selGet sel k := by
  induction sel with
  | nil =>
    by_cases h : k = id
    · simp [selSet, selGet, h]
    · have h' : ¬ id = k := fun e => h e.symm
      simp [selSet, selGet, h, h']
  | cons kv rest ih =>
    obtain ⟨a, w⟩ := kv
    by_cases ha : a = id
    · by_cases hk : k = id
      · simp [selSet, selGet, ha, hk]
      · have h' : ¬ id = k := fun e => hk e.symm
        simp [selSet, selGet, ha, hk, h']
    · by_cases hk : k = id
      · subst hk
        simp [selSet, selGet, ha, ih]
      · by_cases hak : a = k
        · simp [selSet, selGet, ha, hk, hak]
        · simp [selSet, selGet, ha, hk, hak, ih]

theorem selGet_selDelete (sel : Sel) (id k : Str) :
    selGet (selDelete sel id) k = if k = id then none else selGet sel k := by
  induction sel with
  | nil => simp [selDelete, selGet]
  | cons kv rest ih =>
    obtain ⟨a, w⟩ := kv
    unfold selDelete at ih ⊢
    by_cases ha : a = id
    · by_cases hk : k = id
      · simp [selGet, ha, hk] at ih ⊢
        exact ih
      · have h' : ¬ id = k := fun e => hk e.symm
        simp [selGet, ha, hk, h'] at ih ⊢
        exact ih
    · by_cases hak : a = k
      · have hk : ¬ k = id := fun e => ha (hak.trans e)
        simp [selGet, ha, hak, hk, List.filter_cons]
      · simp [selGet, ha, hak, List.filter_cons] at ih ⊢
        exact ih

theorem setQtyValue_eq (qty : Cell) :
    setQtyValue qty = if qty.toNumber.geOne then qty.toNumber.floor else .fin 1 0 := by
  unfold setQtyValue
  cases h : qty.toNumber with
  | nan => simp [JSNum.truthy, JSNum.floor, JSNum.maxOne, JSNum.geOne]
  | posInf => simp [JSNum.truthy, JSNum.floor, JSNum.maxOne, JSNum.geOne]
  | negInf => simp [JSNum.truthy, JSNum.floor, JSNum.maxOne, JSNum.geOne]
  | fin ip fp =>
    by_cases h0 : ip = 0 ∧ fp = 0
    · obtain ⟨rfl, rfl⟩ := h0
      simp [JSNum.truthy, JSNum.floor, JSNum.maxOne, JSNum.geOne]
    · have ht : JSNum.truthy (.fin ip fp) = true := by
        simp only [JSNum.truthy, Bool.not_eq_true', Bool.and_eq_false_iff, beq_eq_false_iff_ne]
        by_cases hi : ip = 0
        · right; exact fun e => h0 ⟨hi, e⟩
        · left; exact hi
      simp [ht, JSNum.floor, JSNum.maxOne, JSNum.geOne]

theorem setQtyValue_isQuantity (qty : Cell) : (setQtyValue qty).IsQuantity := by
  rw [setQtyValue_eq]
  cases h : qty.toNumber with
  | nan => exact Or.inr ⟨1, le_refl _, by simp [JSNum.geOne]⟩
  | posInf => exact Or.inl (by simp [JSNum.geOne, JSNum.floor])
  | negInf => exact Or.inr ⟨1, le_refl _, by simp [JSNum.geOne]⟩
  | fin ip fp =>
    by_cases h1 : 1 ≤ ip
    · refine Or.inr ⟨ip.toNat, by omega, ?_⟩
      have : ((ip.toNat : Nat) : Int) = ip := Int.toNat_of_nonneg (by omega)
      simp [JSNum.geOne, h1, JSNum.floor, this]
    · exact Or.inr ⟨1, le_refl _, by simp [JSNum.geOne, h1]⟩

theorem toggleSelect_of_none (sel : Sel) (id : Str) (h : selGet sel id = none) :
    toggleSelect id sel = selSet sel id (JSNum.fin 1 0) := by
  unfold toggleSelect
  simp only [h]

theorem toggleSelect_of_truthy (sel : Sel) (id : Str) (v : JSNum) (h : selGet sel id = some v)
    (hv : v.truthy = true) : toggleSelect id sel = selDelete sel id := by
  unfold toggleSelect
  simp only [h, hv, if_true]

theorem toggleSelect_of_falsy (sel : Sel) (id : Str) (v : JSNum) (h : selGet sel id = some v)
    (hv : ¬ v.truthy = true) : toggleSelect id sel = selSet sel id (JSNum.fin 1 0) := by
  unfold toggleSelect
  simp [h, hv]

theorem selGet_toggleSelect_of_ne (sel : Sel) (id k : Str) (hk : k ≠ id) :
    selGet (toggleSelect id sel) k = selGet sel k := by
  cases h : selGet sel id with
  | none => rw [toggleSelect_of_none sel id h, selGet_selSet, if_neg hk]
  | some v =>
    by_cases hv : v.truthy = true
    · rw [toggleSelect_of_truthy sel id v h hv, selGet_selDelete, if_neg hk]
    · rw [toggleSelect_of_falsy sel id v h hv, selGet_selSet, if_neg hk]

theorem truthy_one : (JSNum.fin 1 0).truthy = true := by decide

/-! ## Toggling twice (C1) -/

/-- C1, as the claim states it, fails: an item selected with quantity 3 and
toggled twice is selected with quantity 1 afterwards. -/
theorem toggle_twice_forgets_quantity :
    selGet (toggleSelect "p1".toList (toggleSelect "p1".toList [("p1".toList, JSNum.fin 3 0)]))
        "p1".toList
      ≠ selGet [("p1".toList, JSNum.fin 3 0)] "p1".toList := by
  decide

/-- C1, amended: after `toggle(id)` applied twice every other identifier has the
quantity it had, and `id` is unselected if it was unselected before and selected
with quantity 1 if it was selected with any non-zero quantity; so the selection
is the original one exactly when `id` was unselected or had quantity 1. -/
theorem toggleSelect_twice (sel : Sel) (id k : Str) :
    selGet (toggleSelect id (toggleSelect id sel)) k =
      if k = id then
        (match selGet sel id with
         | some v => if v.truthy then some (JSNum.fin 1 0) else none
         | none => none)
      else selGet sel k := by
  by_cases hk : k = id
  · subst hk
    rw [if_pos rfl]
    cases h : selGet sel k with
    | none =>
      have h1 : selGet (toggleSelect k sel) k = some (JSNum.fin 1 0) := by
        rw [toggleSelect_of_none sel k h, selGet_selSet, if_pos rfl]
      rw [toggleSelect_of_truthy _ k _ h1 truthy_one, selGet_selDelete, if_pos rfl]
    | some v =>
      by_cases hv : v.truthy = true
      · have h1 : selGet (toggleSelect k sel) k = none := by
          rw [toggleSelect_of_truthy sel k v h hv, selGet_selDelete, if_pos rfl]
        rw [toggleSelect_of_none _ k h1, selGet_selSet, if_pos rfl]
        simp only [hv, if_true]
      · have h1 : selGet (toggleSelect k sel) k = some (JSNum.fin 1 0) := by
          rw [toggleSelect_of_falsy sel k v h hv, selGet_selSet, if_pos rfl]
        rw [toggleSelect_of_truthy _ k _ h1 truthy_one, selGet_selDelete, if_pos rfl]
        simp [hv]
  · rw [if_neg hk, selGet_toggleSelect_of_ne _ _ _ hk, selGet_toggleSelect_of_ne _ _ _ hk]

/-! ## Setting a quantity (C5) -/

/-- C5, as the claim states it, fails: the raw value `"Infinity"` parses to the
number `Infinity`, which `setQty` stores; the stored value is not an integer. -/
theorem setQty_infinity_not_integer :
    selGet (setQty "p1".toList (.str "Infinity".toList) []) "p1".toList = some JSNum.posInf ∧
    ¬ ∃ n : Int, selGet (setQty "p1".toList (.str "Infinity".toList) []) "p1".toList
        = some (JSNum.fin n 0) := by
  have h : selGet (setQty "p1".toList (.str "Infinity".toList) []) "p1".toList
      = some JSNum.posInf := by decide
  refine ⟨h, ?_⟩
  rintro ⟨n, hn⟩
  rw [h] at hn
  cases hn

/-- C5, amended: after `setQuantity(id, v)` the selection maps `id` to `q`,
whether or not `id` was selected before, and every other entry is unchanged;
`q` is `Number(v)` rounded down when `Number(v) >= 1` and `1` in every other
case; `q` is a positive integer, except that it is `Infinity` when `v` parses to
`Infinity`.  `setQuantity(id, "0")` leaves `id` selected with quantity 1. -/
theorem setQty_spec (sel : Sel) (id k : Str) (v : Cell) :
    selGet (setQty id v sel) k = (if k = id then some (setQtyValue v) else selGet sel k) ∧
    setQtyValue v = (if v.toNumber.geOne then v.toNumber.floor else JSNum.fin 1 0) ∧
    ((∃ n : Nat, 1 ≤ n ∧ setQtyValue v = JSNum.fin n 0) ∨
      (v.toNumber = JSNum.posInf ∧ setQtyValue v = JSNum.posInf)) ∧
    selGet (setQty id (.str "0".toList) sel) id = some (JSNum.fin 1 0) := by
  refine ⟨selGet_selSet _ _ _ _, setQtyValue_eq v, ?_, ?_⟩
  · rw [setQtyValue_eq]
    cases h : v.toNumber with
    | nan => exact Or.inl ⟨1, le_refl _, by simp [JSNum.geOne]⟩
    | posInf => exact Or.inr ⟨rfl, by simp [JSNum.geOne, JSNum.floor]⟩
    | negInf => exact Or.inl ⟨1, le_refl _, by simp [JSNum.geOne]⟩
    | fin ip fp =>
      by_cases h1 : 1 ≤ ip
      · refine Or.inl ⟨ip.toNat, by omega, ?_⟩
        have : ((ip.toNat : Nat) : Int) = ip := Int.toNat_of_nonneg (by omega)
        simp [JSNum.geOne, h1, JSNum.floor, this]
      · exact Or.inl ⟨1, le_refl _, by simp [JSNum.geOne, h1]⟩
  · have h0 : setQtyValue (.str "0".toList) = JSNum.fin 1 0 := by
      set_option maxRecDepth 1000000 in decide
    rw [setQty, selGet_selSet, if_pos rfl, h0]

/-! ## The empty import (C10) -/

/-- C10: when the rows of the decoded sheet yield no record, the import handler
shows the empty-import alert and returns the state it was given: `parts` and
`selected` are as before. -/
theorem onLoad_empty_import (E : Engine) (now : Nat → Nat) (rows : List (List Cell))
    (st : State) (h : parseExcelRowsToParts E now rows = []) :
    onLoad E now (some rows) st = (st, some Notice.emptyImport) := by
  simp [onLoad, h]

/-- C10 at the empty grid and at a grid whose rows all have an empty name, with
the sample catalog and one item selected. -/
theorem onLoad_empty_import_witness :
    parseExcelRowsToParts refEngine (fun _ => 0) [] = [] ∧
    onLoad refEngine (fun _ => 0) (some [])
        { initialState refEngine with selected := [("p1".toList, JSNum.fin 2 0)] }
      = ({ initialState refEngine with selected := [("p1".toList, JSNum.fin 2 0)] },
         some Notice.emptyImport) ∧
    onLoad refEngine (fun _ => 0)
        (some [[.str "품명".toList], [.str []], [.str "  ".toList], [.undefined]])
        { initialState refEngine with selected := [("p1".toList, JSNum.fin 2 0)] }
      = ({ initialState refEngine with selected := [("p1".toList, JSNum.fin 2 0)] },
         some Notice.emptyImport) :=
  ⟨rfl, onLoad_empty_import refEngine (fun _ => 0) [] _ rfl,
    onLoad_empty_import refEngine (fun _ => 0)
      [[.str "품명".toList], [.str []], [.str "  ".toList], [.undefined]] _ (by decide)⟩

/-! ## Reading the sheet (C6) -/

theorem scanHeaders_eq (hs : List Str) (i : Nat) (a b : Int) :
    scanHeaders hs i (a, b) =
      (if a = -1 then idxOf ((firstIndex (fun h => decide (h ∈ NAME_HEADERS)) hs).map (· + i)) else a,
       if b = -1 then idxOf ((firstIndex (fun h => decide (h ∈ QTY_HEADERS)) hs).map (· + i)) else b) := by
  induction hs generalizing i a b with
  | nil =>
    simp only [scanHeaders, firstIndex, idxOf, Option.map_none']
    by_cases ha : a = -1 <;> by_cases hb : b = -1 <;> simp [ha, hb]
  | cons h hs ih =>
    have key : ∀ (P : Str → Bool) (c : Int),
        (if (if c = -1 ∧ P h = true then (i : Int) else c) = -1 then
            idxOf ((firstIndex P hs).map (· + (i + 1))) else
            (if c = -1 ∧ P h = true then (i : Int) else c)) =
        (if c = -1 then idxOf ((firstIndex P (h :: hs)).map (· + i)) else c) := by
      intro P c
      by_cases hc : c = -1
      · by_cases hp : P h = true
        · have hi : ¬ ((i : Int) = -1) := by omega
          simp [hc, hp, hi, firstIndex, idxOf]
        · cases hf : firstIndex P hs with
          | none => simp [hc, hp, firstIndex, hf, idxOf]
          | some j => simp [hc, hp, firstIndex, hf, idxOf, Nat.add_assoc, Nat.add_comm 1 i]
      · simp [hc]
    have k1 := key (fun h => decide (h ∈ NAME_HEADERS)) a
    have k2 := key (fun h => decide (h ∈ QTY_HEADERS)) b
    simp only [decide_eq_true_eq] at k1 k2
    simp only [scanHeaders]
    rw [ih, k1, k2]

theorem firstIndex_map {α β : Type} (f : α → β) (p : β → Bool) (l : List α) :
    firstIndex p (l.map f) = firstIndex (fun x => p (f x)) l := by
  induction l with
  | nil => rfl
  | cons x xs ih => simp [firstIndex, ih]

theorem cellAt_idxOf (row : List Cell) (o : Option Nat) :
    cellAt row (idxOf o) = ((o.bind fun j => row.get? j).getD .undefined) := by
  cases o with
  | none => simp [cellAt, idxOf]
  | some j =>
    have h : ¬ ((j : Int) < 0) := by omega
    simp [cellAt, idxOf, h, List.getD_eq_getElem?_getD, List.get?_eq_getElem?]

theorem parseCategoryAndName_undefined (E : Engine) :
    parseCategoryAndName E .undefined = parseCategoryAndName E (.str []) := rfl

/-- The record pushed for a row by the loop of the source, without identifier. -/
theorem collectRows_eq (E : Engine) (now : Nat → Nat) (nameCol qtyCol : Option Nat)
    (rows : List (List Cell)) (r : Nat) (out : List Rec) :
    (collectRows E now (idxOf nameCol) (idxOf qtyCol) rows r out).map
        (fun x => (x.category, x.name, x.qty)) =
      out.map (fun x => (x.category, x.name, x.qty)) ++
        rows.filterMap (rowRecord E nameCol qtyCol) := by
  induction rows generalizing r out with
  | nil => simp [collectRows]
  | cons row rest ih =>
    have hname : parseCategoryAndName E (cellAt row (idxOf nameCol)) =
        parseCategoryAndName E
          (match nameCol.bind (fun j => row.get? j) with
            | some c => c
            | none => .str []) := by
      rw [cellAt_idxOf]
      cases nameCol.bind (fun j => row.get? j) with
      | none => exact parseCategoryAndName_undefined E
      | some c => rfl
    have hqty : (if idxOf qtyCol ≠ -1 then
          (if (cellAt row (idxOf qtyCol)).toNumber ≠ .nan ∧
              (cellAt row (idxOf qtyCol)).toNumber.gtZero = true
            then some (cellAt row (idxOf qtyCol)).toNumber.floor else none)
          else none) =
        (match qtyCol.bind (fun j => row.get? j) with
          | some c => if c.toNumber.gtZero then some c.toNumber.floor else none
          | none => none) := by
      cases qtyCol with
      | none => simp [idxOf]
      | some j =>
        have hj : ¬ ((j : Int) = -1) := by omega
        rw [cellAt_idxOf]
        simp only [idxOf, ne_eq, hj, not_false_eq_true, if_true, Option.some_bind]
        cases hc : row.get? j with
        | none => simp [Cell.toNumber, JSNum.gtZero]
        | some c =>
          simp only [Option.getD_some]
          by_cases hg : c.toNumber.gtZero = true
          · have hn : c.toNumber ≠ .nan := by
              intro e
              rw [e] at hg
              simp [JSNum.gtZero] at hg
            simp [hg, hn]
          · simp [hg]
    simp only [collectRows, List.filterMap_cons, rowRecord]
    rw [hname, hqty]
    by_cases hempty : (parseCategoryAndName E
          (match nameCol.bind (fun j => row.get? j) with
            | some c => c
            | none => .str [])).name = []
    · simp only [hempty, if_true]
      exact ih (r + 1) out
    · simp only [hempty, if_false]
      rw [ih (r + 1)]
      simp

theorem idxOf_eq_neg_one (o : Option Nat) : idxOf o = -1 ↔ o = none := by
  cases o with
  | none => simp [idxOf]
  | some j =>
    have : ¬ ((j : Int) = -1) := by omega
    simp [idxOf, this]

theorem scanHeaders_row0 (E : Engine) (row0 : List Cell) :
    scanHeaders ((row0.map fun h => trim (if h.truthy then h.toStr E else [])).map (toLowerCase E))
        0 (-1, -1) =
      (idxOf (nameColumn E row0),
       idxOf (qtyColumn E row0)) := by
  rw [scanHeaders_eq, List.map_map, firstIndex_map, firstIndex_map]
  have h0 : ∀ o : Option Nat, o.map (· + 0) = o := by
    intro o; cases o <;> rfl
  simp only [if_true, h0]
  rfl

theorem parseExcelRowsToParts_cons (E : Engine) (now : Nat → Nat) (row0 : List Cell)
    (rest : List (List Cell)) :
    parseExcelRowsToParts E now (row0 :: rest) =
      if nameColumn E row0 = none ∧
          qtyColumn E row0 = none then
        collectRows E now (idxOf (some 0)) (idxOf none) (row0 :: rest) 0 []
      else
        collectRows E now
          (idxOf (nameColumn E row0))
          (idxOf (qtyColumn E row0)) rest 1 [] := by
  simp only [parseExcelRowsToParts]
  rw [scanHeaders_row0]
  by_cases h : nameColumn E row0 = none ∧
      qtyColumn E row0 = none
  · have hh : ¬ (idxOf (nameColumn E row0) ≠ -1 ∨
        idxOf (qtyColumn E row0) ≠ -1) := by
      rw [h.1, h.2]; simp [idxOf]
    rw [if_pos h]
    simp only [hh, if_false, List.drop_zero]
    rw [h.2]
    rfl
  · have hh : (idxOf (nameColumn E row0) ≠ -1 ∨
        idxOf (qtyColumn E row0) ≠ -1) := by
      by_contra hc
      apply h
      rw [not_or, not_not, not_not, idxOf_eq_neg_one, idxOf_eq_neg_one] at hc
      exact hc
    rw [if_neg h]
    simp only [hh, if_true, List.drop_one, List.tail_cons]

theorem ingest_refinement (E : Engine) (now : Nat → Nat)
    (rows : List (List Cell)) :
    (parseExcelRowsToParts E now rows).map (fun x => (x.category, x.name, x.qty)) =
        recordsOf E rows := by
  cases rows with
  | nil => rfl
  | cons row0 rest =>
    rw [parseExcelRowsToParts_cons]
    simp only [recordsOf]
    split
    · rw [collectRows_eq]; rfl
    · rw [collectRows_eq]; rfl

theorem rowRecord_qty (E : Engine) (nameCol qtyCol : Option Nat) (row : List Cell)
    (c n : Str) (q : JSNum) (h : rowRecord E nameCol qtyCol row = some (c, n, some q)) :
    ∃ x : JSNum, x.gtZero = true ∧ q = x.floor := by
  unfold rowRecord at h
  simp only at h
  split at h
  · cases h
  · simp only [Option.some.injEq, Prod.mk.injEq] at h
    obtain ⟨_, _, h⟩ := h
    split at h
    · rename_i cell _
      by_cases hg : cell.toNumber.gtZero = true
      · rw [if_pos hg] at h
        exact ⟨cell.toNumber, hg, (Option.some.inj h).symm⟩
      · rw [if_neg hg] at h
        cases h
    · cases h

theorem parseExcelRowsToParts_qty (E : Engine) (now : Nat → Nat) (rows : List (List Cell))
    (r : Rec) (hr : r ∈ parseExcelRowsToParts E now rows) (q : JSNum) (hq : r.qty = some q) :
    ∃ x : JSNum, x.gtZero = true ∧ q = x.floor := by
  have hmem : (r.category, r.name, r.qty) ∈
      (parseExcelRowsToParts E now rows).map (fun x => (x.category, x.name, x.qty)) :=
    List.mem_map.mpr ⟨r, hr, rfl⟩
  rw [(ingest_refinement E now rows), hq] at hmem
  cases rows with
  | nil => simp [recordsOf] at hmem
  | cons row0 rest =>
    simp only [recordsOf] at hmem
    split at hmem
    · obtain ⟨row, _, h⟩ := List.mem_filterMap.mp hmem
      exact rowRecord_qty _ _ _ _ _ _ _ h
    · obtain ⟨row, _, h⟩ := List.mem_filterMap.mp hmem
      exact rowRecord_qty _ _ _ _ _ _ _ h

theorem hintOf_eq (x : JSNum) : (if x.gtZero = true then some x.floor else none) = hintOf x := by
  cases x with
  | nan => rfl
  | posInf => rfl
  | negInf => rfl
  | fin ip fp =>
    by_cases h : 0 < ip ∨ (ip = 0 ∧ fp ≠ 0)
    · have hg : (JSNum.fin ip fp).gtZero = true := by
        rcases h with h | ⟨h1, h2⟩
        · simp [JSNum.gtZero, h]
        · simp [JSNum.gtZero, h1, h2]
      simp only [hg, if_true, hintOf, h, JSNum.floor]
    · have hg : ¬ (JSNum.fin ip fp).gtZero = true := by
        intro hg
        apply h
        simp only [JSNum.gtZero, Bool.or_eq_true, decide_eq_true_eq, Bool.and_eq_true,
          beq_iff_eq, bne_iff_ne, ne_eq] at hg
        exact hg
      rw [if_neg hg]
      simp only [hintOf, h, if_false]

theorem hintOf_range (x q : JSNum) (h : hintOf x = some q) :
    q = .posInf ∨ ∃ n : Nat, q = .fin n 0 := by
  cases x with
  | nan => cases h
  | posInf => exact Or.inl (Option.some.inj h).symm
  | negInf => cases h
  | fin ip fp =>
    simp only [hintOf] at h
    split at h
    · rename_i hpos
      refine Or.inr ⟨ip.toNat, ?_⟩
      have : ((ip.toNat : Nat) : Int) = ip := Int.toNat_of_nonneg (by omega)
      rw [this]
      exact (Option.some.inj h).symm
    · cases h

theorem rowRecord_eq_ingestSpecRow (E : Engine) (j : Nat) (q : Option Nat) (row : List Cell) :
    rowRecord E (some j) q row = ingestSpecRow E j q row := by
  unfold rowRecord ingestSpecRow
  have hname : (match (some j).bind (fun j => row.get? j) with
      | some c => c
      | none => Cell.str []) = (row.get? j).getD (.str []) := by
    simp only [Option.some_bind]
    cases row.get? j <;> rfl
  have hq : (match q.bind (fun j => row.get? j) with
      | some c => if c.toNumber.gtZero = true then some c.toNumber.floor else none
      | none => none) =
      (match q with
        | some j =>
          match row.get? j with
          | some c => hintOf c.toNumber
          | none => none
        | none => none) := by
    cases q with
    | none => rfl
    | some k =>
      simp only [Option.some_bind]
      cases row.get? k with
      | none => rfl
      | some c => exact hintOf_eq c.toNumber
  simp only [hname, hq]

theorem recordsOf_of_ingestSpec (E : Engine) (rows : List (List Cell))
    (out : List (Str × Str × Option JSNum)) (h : ingestSpec E rows = some out) :
    recordsOf E rows = out := by
  cases rows with
  | nil =>
    simp only [ingestSpec, Option.some.injEq] at h
    rw [← h]
    rfl
  | cons row0 rest =>
    simp only [ingestSpec, recordsOf] at h ⊢
    cases hn : nameColumn E row0 with
    | none =>
      cases hq : qtyColumn E row0 with
      | none =>
        rw [hn, hq] at h
        simp only [Option.some.injEq] at h
        rw [← h]
        simp only [and_self, if_true]
        apply List.filterMap_congr
        intro row _
        exact rowRecord_eq_ingestSpecRow E 0 none row
      | some k =>
        rw [hn, hq] at h
        cases h
    | some j =>
      rw [hn] at h
      simp only [Option.some.injEq] at h
      rw [← h]
      simp only [reduceCtorEq, false_and, if_false]
      apply List.filterMap_congr
      intro row _
      exact rowRecord_eq_ingestSpecRow E j _ row

/-- C6, as the claim states it, fails: a quantity cell with the text `Infinity`
parses to the number `Infinity`, and the record gets the hint `Infinity`, which
is not an integer. -/
theorem ingest_infinite_hint :
    (parseExcelRowsToParts refEngine (fun _ => 0)
        [[.str "품명".toList, .str "수량".toList],
         [.str "강아지".toList, .str "Infinity".toList]]).map (fun x => (x.category, x.name, x.qty)) =
      [(defaultCategory, "강아지".toList, some JSNum.posInf)] ∧
    ∀ n : Int, JSNum.posInf ≠ JSNum.fin n 0 := by
  constructor
  · rw [ingest_refinement]
    set_option maxRecDepth 1000000 in decide
  · intro n h
    cases h

/-- C6, amended: wherever the specification describes the result, the code
returns it, identifiers aside.  No rows give no records; otherwise the name and
quantity columns are the first cells of row 0 whose trimmed, lower-cased text is
in the respective vocabulary; without either one every row is a data row and
the name is in column 0; with a name column the data rows are the rows after
row 0 and the name is in that column; in row order, each data row whose name
cell (a missing cell counts as empty) parses to a non-empty name gives one
record with that category and name, and with a hint exactly when there is a
quantity column and the cell parses to a number above zero, the hint being the
integer part of that number, or `Infinity` when the number is `Infinity`. -/
theorem parseExcelRowsToParts_eq_ingestSpec (E : Engine) (now : Nat → Nat)
    (rows : List (List Cell)) (out : List (Str × Str × Option JSNum))
    (h : ingestSpec E rows = some out) :
    (parseExcelRowsToParts E now rows).map (fun x => (x.category, x.name, x.qty)) = out ∧
    ∀ t ∈ out, ∀ q, t.2.2 = some q → q = JSNum.posInf ∨ ∃ n : Nat, q = JSNum.fin n 0 := by
  have hmap := ingest_refinement E now rows
  rw [recordsOf_of_ingestSpec E rows out h] at hmap
  refine ⟨hmap, ?_⟩
  intro t ht q hq
  rw [← hmap] at ht
  obtain ⟨r, hr, rfl⟩ := List.mem_map.mp ht
  obtain ⟨x, hx, rfl⟩ := parseExcelRowsToParts_qty E now rows r hr q hq
  have := hintOf_eq x
  rw [if_pos hx] at this
  exact hintOf_range x _ this.symm

/-- C6 on the sheet with header `품명`, `수량` and the rows `[식물] 상추`, `2` and
`[동물] 강아지`, empty: the records are (식물, 상추, hint 2) and (동물, 강아지, no
hint). -/
theorem parseExcelRowsToParts_eq_ingestSpec_witness :
    (parseExcelRowsToParts refEngine (fun _ => 0)
        [[.str "품명".toList, .str "수량".toList],
         [.str "[식물] 상추".toList, .str "2".toList],
         [.str "[동물] 강아지".toList, .str []]]).map (fun x => (x.category, x.name, x.qty)) =
      [("식물".toList, "상추".toList, some (JSNum.fin 2 0)),
       ("동물".toList, "강아지".toList, none)] :=
  (parseExcelRowsToParts_eq_ingestSpec refEngine (fun _ => 0)
    [[.str "품명".toList, .str "수량".toList],
     [.str "[식물] 상추".toList, .str "2".toList],
     [.str "[동물] 강아지".toList, .str []]]
    [("식물".toList, "상추".toList, some (JSNum.fin 2 0)),
     ("동물".toList, "강아지".toList, none)]
    (by set_option maxRecDepth 1000000 in decide)).1

/-! ## The invariant of the selection (C9) -/

theorem floor_isQuantity (x : JSNum) (hx : x.gtZero = true) (hf : x.floor.gtZero = true) :
    x.floor.IsQuantity := by
  cases x with
  | nan => simp [JSNum.gtZero] at hx
  | posInf => exact Or.inl rfl
  | negInf => simp [JSNum.gtZero] at hx
  | fin ip fp =>
    have hpos : 0 < ip := by simpa [JSNum.floor, JSNum.gtZero] using hf
    refine Or.inr ⟨ip.toNat, by omega, ?_⟩
    have : ((ip.toNat : Nat) : Int) = ip := Int.toNat_of_nonneg (by omega)
    simp [JSNum.floor, this]

theorem selGet_foldl_initialSelected (parsed : List Rec) (acc : Sel) (k : Str) (q : JSNum)
    (h : selGet (parsed.foldl (fun acc p =>
        match p.qty with
        | some q => if q.truthy && q.gtZero then selSet acc p.id q else acc
        | none => acc) acc) k = some q) :
    selGet acc k = some q ∨ ∃ r ∈ parsed, r.id = k ∧ r.qty = some q ∧ q.gtZero = true := by
  induction parsed generalizing acc with
  | nil => exact Or.inl h
  | cons p ps ih =>
    simp only [List.foldl_cons] at h
    rcases ih _ h with h1 | ⟨r, hr, hid, hq, hg⟩
    · cases hp : p.qty with
      | none =>
        rw [hp] at h1
        exact Or.inl h1
      | some v =>
        rw [hp] at h1
        simp only at h1
        by_cases hv : (v.truthy && v.gtZero) = true
        · rw [if_pos hv, selGet_selSet] at h1
          by_cases hk : k = p.id
          · rw [if_pos hk] at h1
            have hvq : v = q := Option.some.inj h1
            subst hvq
            refine Or.inr ⟨p, List.mem_cons_self _ _, hk.symm, hp, ?_⟩
            simp only [Bool.and_eq_true] at hv
            exact hv.2
          · rw [if_neg hk] at h1
            exact Or.inl h1
        · rw [if_neg hv] at h1
          exact Or.inl h1
    · exact Or.inr ⟨r, List.mem_cons_of_mem _ hr, hid, hq, hg⟩

theorem selGet_initialSelected (parsed : List Rec) (k : Str) (q : JSNum)
    (h : selGet (initialSelected parsed) k = some q) :
    ∃ r ∈ parsed, r.id = k ∧ r.qty = some q ∧ q.gtZero = true := by
  rcases selGet_foldl_initialSelected parsed [] k q h with h1 | h2
  · simp [selGet] at h1
  · exact h2

theorem onLoad_selectionOk (E : Engine) (now : Nat → Nat) (rows : List (List Cell)) (st : State)
    (h : st.SelectionOk) : (onLoad E now (some rows) st).1.SelectionOk := by
  unfold onLoad
  simp only
  split
  · exact h
  · intro k q hq
    obtain ⟨r, hr, hid, hqty, hg⟩ := selGet_initialSelected _ k q hq
    refine ⟨⟨_, List.mem_map.mpr ⟨r, hr, rfl⟩, hid⟩, ?_⟩
    obtain ⟨x, hx, rfl⟩ := parseExcelRowsToParts_qty E now rows r hr q hqty
    exact floor_isQuantity x hx hg

theorem step_selectionOk (E : Engine) (st : State) (a : Action) (h : st.SelectionOk)
    (ha : a.Allowed st) : (step E st a).SelectionOk := by
  cases a with
  | importRows now rows => exact onLoad_selectionOk E now rows st h
  | toggle id =>
    intro k q hq
    simp only [step] at hq ⊢
    by_cases hk : k = id
    · subst hk
      refine ⟨ha, ?_⟩
      cases hs : selGet st.selected k with
      | none =>
        rw [toggleSelect_of_none _ _ hs, selGet_selSet, if_pos rfl] at hq
        exact Or.inr ⟨1, le_refl _, (Option.some.inj hq).symm⟩
      | some v =>
        by_cases hv : v.truthy = true
        · rw [toggleSelect_of_truthy _ _ v hs hv, selGet_selDelete, if_pos rfl] at hq
          cases hq
        · rw [toggleSelect_of_falsy _ _ v hs hv, selGet_selSet, if_pos rfl] at hq
          exact Or.inr ⟨1, le_refl _, (Option.some.inj hq).symm⟩
    · rw [selGet_toggleSelect_of_ne _ _ _ hk] at hq
      exact h k q hq
  | setQuantity id qty =>
    intro k q hq
    simp only [step, setQty] at hq ⊢
    rw [selGet_selSet] at hq
    by_cases hk : k = id
    · rw [if_pos hk] at hq
      subst hk
      refine ⟨ha, ?_⟩
      rw [← Option.some.inj hq]
      exact setQtyValue_isQuantity qty
    · rw [if_neg hk] at hq
      exact h k q hq
  | clear =>
    intro k q hq
    simp [step, clearAll, selGet] at hq

/-- C9, as the claim states it, fails: from the initial state, `setQuantity` on
the sample item `p1` with the raw value `"Infinity"` reaches a state whose
selection maps `p1` to `Infinity`, which is not an integer; so does the import
of a sheet whose quantity cell holds the text `Infinity`. -/
theorem reachable_infinite_quantity :
    Reachable refEngine
      (step refEngine (initialState refEngine)
        (.setQuantity "p1".toList (.str "Infinity".toList))) ∧
    selGet (step refEngine (initialState refEngine)
        (.setQuantity "p1".toList (.str "Infinity".toList))).selected "p1".toList
      = some JSNum.posInf ∧
    (¬ ∃ n : Int, selGet (step refEngine (initialState refEngine)
        (.setQuantity "p1".toList (.str "Infinity".toList))).selected "p1".toList
      = some (JSNum.fin n 0)) ∧
    Reachable refEngine
      (step refEngine (initialState refEngine)
        (.importRows (fun _ => 0)
          [[.str "품명".toList, .str "수량".toList],
           [.str "강아지".toList, .str "Infinity".toList]])) ∧
    selGet (step refEngine (initialState refEngine)
        (.importRows (fun _ => 0)
          [[.str "품명".toList, .str "수량".toList],
           [.str "강아지".toList, .str "Infinity".toList]])).selected "p-1-0".toList
      = some JSNum.posInf := by
  have h : selGet (step refEngine (initialState refEngine)
        (.setQuantity "p1".toList (.str "Infinity".toList))).selected "p1".toList
      = some JSNum.posInf := by decide
  refine ⟨Reachable.step _ _ Reachable.init ?_, h, ?_,
    Reachable.step _ _ Reachable.init trivial, by decide⟩
  · show ∃ p ∈ (initialState refEngine).parts, p.id = "p1".toList
    decide
  · rintro ⟨n, hn⟩
    rw [h] at hn
    cases hn

/-- C9, amended: in every state reachable from the initial state by imports,
`toggle`, `setQuantity` and `clearAll`, with `toggle` and `setQuantity` applied
to identifiers of the current catalog, every key of the selection is the
identifier of an item of the current list and its value is an integer that is
at least 1 or is `Infinity`, never zero, negative or `NaN`; right after an import
that yields records, every key of the selection is the identifier of a new
record and its value is the quantity hint of that record. -/
theorem reachable_selectionOk (E : Engine) (st : State) (h : Reachable E st) :
    st.SelectionOk ∧
    ∀ (now : Nat → Nat) (rows : List (List Cell)), parseExcelRowsToParts E now rows ≠ [] →
      ∀ k q, selGet (step E st (.importRows now rows)).selected k = some q →
        ∃ r ∈ parseExcelRowsToParts E now rows, r.id = k ∧ r.qty = some q ∧ q.IsQuantity := by
  have inv : st.SelectionOk := by
    induction h with
    | init =>
      intro k q hq
      simp [initialState, selGet] at hq
    | step st a _ ha ih => exact step_selectionOk E st a ih ha
  refine ⟨inv, ?_⟩
  intro now rows hne k q hq
  have hlen : ¬ (parseExcelRowsToParts E now rows).length = 0 := by
    intro e
    exact hne (List.length_eq_zero.mp e)
  simp only [step, onLoad, hlen, if_false] at hq
  obtain ⟨r, hr, hid, hqty, hg⟩ := selGet_initialSelected _ k q hq
  refine ⟨r, hr, hid, hqty, ?_⟩
  obtain ⟨x, hx, rfl⟩ := parseExcelRowsToParts_qty E now rows r hr q hqty
  exact floor_isQuantity x hx hg

/-- C9 at the state reached from the initial state by `setQuantity("p1", "2")`,
and at the import, into that state, of a sheet with one item of quantity 2. -/
theorem reachable_selectionOk_witness :
    Reachable refEngine
      (step refEngine (initialState refEngine) (.setQuantity "p1".toList (.str "2".toList))) ∧
    (step refEngine (initialState refEngine)
      (.setQuantity "p1".toList (.str "2".toList))).SelectionOk ∧
    ∃ r ∈ parseExcelRowsToParts refEngine (fun _ => 0)
        [[.str "품명".toList, .str "수량".toList], [.str "[식물] 상추".toList, .str "2".toList]],
      r.id = "p-1-0".toList ∧ r.qty = some (JSNum.fin 2 0) ∧ (JSNum.fin 2 0).IsQuantity :=
  have hr : Reachable refEngine
      (step refEngine (initialState refEngine) (.setQuantity "p1".toList (.str "2".toList))) :=
    Reachable.step _ _ Reachable.init (by
      show ∃ p ∈ (initialState refEngine).parts, p.id = "p1".toList
      decide)
  ⟨hr, (reachable_selectionOk refEngine _ hr).1,
    (reachable_selectionOk refEngine _ hr).2 (fun _ => 0)
      [[.str "품명".toList, .str "수량".toList], [.str "[식물] 상추".toList, .str "2".toList]]
      (by set_option maxRecDepth 1000000 in decide) "p-1-0".toList (JSNum.fin 2 0)
      (by set_option maxRecDepth 1000000 in decide)⟩

/-! ## The output (C3) -/

theorem removeWs_append (a b : Str) : removeWs (a ++ b) = removeWs a ++ removeWs b := by
  simp [removeWs]

theorem removeWs_join_comma (l : List Str) :
    removeWs (join [','] l) = join [','] (l.map removeWs) := by
  induction l with
  | nil => rfl
  | cons x xs ih =>
    cases xs with
    | nil => simp [join]
    | cons y ys =>
      have hc : removeWs [','] = [','] := by decide
      simp only [join, List.map_cons, removeWs_append, hc] at ih ⊢
      rw [ih]

theorem isSpace_of_mem_removeWs (s : Str) (c : Char) (h : c ∈ removeWs s) : isSpace c = false := by
  simpa [removeWs] using (List.mem_filter.mp h).2

theorem removeWs_eq_self (s : Str) (h : ∀ c ∈ s, isSpace c = false) : removeWs s = s := by
  unfold removeWs
  rw [List.filter_eq_self]
  intro c hc
  simp [h c hc]

theorem digitChar_not_space (d : Nat) (h : d < 10) : isSpace (Nat.digitChar d) = false := by
  interval_cases d <;> decide

theorem toDigitsCore_not_space (fuel n : Nat) (acc : Str) (hacc : ∀ c ∈ acc, isSpace c = false) :
    ∀ c ∈ Nat.toDigitsCore 10 fuel n acc, isSpace c = false := by
  induction fuel generalizing n acc with
  | zero => simpa [Nat.toDigitsCore] using hacc
  | succ fuel ih =>
    have hacc' : ∀ c ∈ Nat.digitChar (n % 10) :: acc, isSpace c = false := by
      intro c hc
      rcases List.mem_cons.mp hc with rfl | hc
      · exact digitChar_not_space _ (Nat.mod_lt _ (by decide))
      · exact hacc c hc
    simp only [Nat.toDigitsCore]
    split
    · exact hacc'
    · exact ih _ _ hacc'

theorem removeWs_toDigits (n : Nat) : removeWs (Nat.toDigits 10 n) = Nat.toDigits 10 n :=
  removeWs_eq_self _ (toDigitsCore_not_space _ _ [] (by simp))

theorem toPosNat?_of_not_gtZero (q : JSNum) (h : ¬ q.gtZero = true) : q.toPosNat? = none := by
  cases q with
  | fin ip fp =>
    by_cases hp : 0 < ip ∧ fp = 0
    · exfalso
      apply h
      simp [JSNum.gtZero, hp.1]
    · simp [JSNum.toPosNat?, hp]
  | nan => rfl
  | posInf => rfl
  | negInf => rfl

theorem entry_of_safe (E : Engine) (selected : Sel) (p : Part) (n : Nat)
    (hn : n < exactPrintBound)
    (hsel : selGet selected p.id = some (.fin n 0)) (hpos : (JSNum.fin n 0).gtZero = true) :
    isSelected selected p = true ∧
    renderSpecEntry selected p = some (removeWs (entryText E selected p)) := by
  have hn0 : 0 < n := by
    by_contra h0
    have : n = 0 := by omega
    subst this
    simp [JSNum.gtZero] at hpos
  have hint : (0 : Int) < (n : Int) := by omega
  constructor
  · have ht : (JSNum.fin n 0).truthy = true := by
      have : ¬ ((n : Int) = 0) := by omega
      simp [JSNum.truthy, this]
    simp [isSelected, hsel, ht, hpos]
  · have hx : removeWs ['x'] = ['x'] := by decide
    have hnum : numberToString E (.fin n 0) = Nat.toDigits 10 n := by
      have hneg : ¬ ((n : Int) < 0) := by omega
      simp only [numberToString, hneg, if_true, if_false, Int.natAbs_ofNat, List.nil_append]
      rw [if_pos hn]
    simp only [renderSpecEntry, entryText, hsel, Option.some_bind, JSNum.toPosNat?, hint, true_and,
      if_true, Option.map_some', Int.toNat_ofNat]
    by_cases h1 : n = 1
    · subst h1
      simp
    · have hne : ¬ (JSNum.fin (n : Int) 0 = JSNum.fin 1 0) := by
        intro e
        injection e with e1 _
        exact h1 (by omega)
      simp only [hne, h1, if_false, removeWs_append, hx, hnum, removeWs_toDigits]
      simp

theorem output_items_eq (E : Engine) (parts : List Part) (selected : Sel)
    (h : SafeQuantities parts selected) :
    ((parts.filter (isSelected selected)).map (entryText E selected)).map removeWs =
      parts.filterMap (renderSpecEntry selected) := by
  induction parts with
  | nil => rfl
  | cons p ps ih =>
    have ih' := ih (fun x hx => h x (List.mem_cons_of_mem _ hx))
    have hp := h p (List.mem_cons_self _ _)
    cases hs : selGet selected p.id with
    | none =>
      have h1 : isSelected selected p = false := by simp [isSelected, hs]
      have h2 : renderSpecEntry selected p = none := by simp [renderSpecEntry, hs]
      simp only [List.filter_cons, h1, List.filterMap_cons, h2]
      exact ih'
    | some q =>
      by_cases hg : q.gtZero = true
      · obtain ⟨n, hn, rfl⟩ := hp q hs hg
        obtain ⟨h1, h2⟩ := entry_of_safe E selected p n hn hs hg
        simp only [List.filter_cons, h1, if_true, List.map_cons, List.filterMap_cons, h2]
        rw [ih']
      · have h1 : isSelected selected p = false := by simp [isSelected, hs, hg]
        have h2 : renderSpecEntry selected p = none := by
          simp [renderSpecEntry, hs, toPosNat?_of_not_gtZero q hg]
        simp only [List.filter_cons, h1, List.filterMap_cons, h2]
        exact ih'

/-- C3, as the claim states it, fails.  A quantity cell with the text `Infinity`
is imported as the quantity `Infinity`, and the output of the resulting state is
`강아지xInfinity`, where the text after `x` is no decimal numeral.  The quantity
`18014398509481992`, set with `setQty`, is an integer, and the output is
`강아지x18014398509481990`: the digits after `x` are those of another number. -/
theorem output_infinite_quantity :
    output refEngine
        (onLoad refEngine (fun _ => 0)
          (some [[.str "품명".toList, .str "수량".toList],
                 [.str "강아지".toList, .str "Infinity".toList]])
          (initialState refEngine)).1.parts
        (onLoad refEngine (fun _ => 0)
          (some [[.str "품명".toList, .str "수량".toList],
                 [.str "강아지".toList, .str "Infinity".toList]])
          (initialState refEngine)).1.selected
      = "강아지xInfinity".toList ∧
    setQty "p1".toList (.str "18014398509481992".toList) [] =
      [("p1".toList, JSNum.fin 18014398509481992 0)] ∧
    output refEngine [{ id := "p1".toList, name := "강아지".toList, category := "동물".toList }]
        (setQty "p1".toList (.str "18014398509481992".toList) [])
      = "강아지x18014398509481990".toList := by
  refine ⟨by decide, ?_, ?_⟩
  · set_option maxRecDepth 1000000 in decide
  · set_option maxRecDepth 1000000 in decide

/-- C3, amended: for every catalog and every selection the output contains no
whitespace, and it is empty for the empty selection.  For every catalog and
every selection in which the quantities above zero of the catalog items are
integers below `2^54 + 8 = 18014398509481992`, the output is exactly this text:
in catalog order, for the items with a quantity above zero, the name without
whitespace when the quantity is 1 and otherwise that name followed by `x` and
the quantity in decimal digits, the fragments joined by single commas. -/
theorem output_eq_renderSpec (E : Engine) (parts : List Part) (selected : Sel) :
    (∀ c ∈ output E parts selected, isSpace c = false) ∧
    output E parts [] = [] ∧
    (SafeQuantities parts selected → output E parts selected = renderSpec parts selected) := by
  refine ⟨fun c hc => isSpace_of_mem_removeWs _ c hc, ?_, ?_⟩
  · have : parts.filter (isSelected []) = [] := by
      rw [List.filter_eq_nil_iff]
      intro p _
      simp [isSelected, selGet]
    simp [output, this, join, removeWs]
  · intro h
    unfold output renderSpec
    simp only
    rw [removeWs_join_comma, output_items_eq E parts selected h]

/-- C3 on the catalog 강아지, 고양이 with 고양이 selected first with quantity 3 and
강아지 with quantity 1: the output is `강아지,고양이x3`. -/
theorem output_eq_renderSpec_witness :
    SafeQuantities
      [⟨"p1".toList, "강아지".toList, "동물".toList⟩, ⟨"p2".toList, "고양이".toList, "동물".toList⟩]
      [("p2".toList, JSNum.fin 3 0), ("p1".toList, JSNum.fin 1 0)] ∧
    output refEngine
      [⟨"p1".toList, "강아지".toList, "동물".toList⟩, ⟨"p2".toList, "고양이".toList, "동물".toList⟩]
      [("p2".toList, JSNum.fin 3 0), ("p1".toList, JSNum.fin 1 0)] = "강아지,고양이x3".toList := by
  have hs : SafeQuantities
      [⟨"p1".toList, "강아지".toList, "동물".toList⟩, ⟨"p2".toList, "고양이".toList, "동물".toList⟩]
      [("p2".toList, JSNum.fin 3 0), ("p1".toList, JSNum.fin 1 0)] := by
    intro p hp q hq _
    simp only [List.mem_cons, List.mem_singleton, List.not_mem_nil, or_false] at hp
    rcases hp with rfl | rfl
    · refine ⟨1, by unfold exactPrintBound; norm_num, ?_⟩
      have : selGet [("p2".toList, JSNum.fin 3 0), ("p1".toList, JSNum.fin 1 0)] "p1".toList
          = some (JSNum.fin 1 0) := by decide
      rw [this] at hq
      exact (Option.some.inj hq).symm
    · refine ⟨3, by unfold exactPrintBound; norm_num, ?_⟩
      have : selGet [("p2".toList, JSNum.fin 3 0), ("p1".toList, JSNum.fin 1 0)] "p2".toList
          = some (JSNum.fin 3 0) := by decide
      rw [this] at hq
      exact (Option.some.inj hq).symm
  refine ⟨hs, ?_⟩
  rw [(output_eq_renderSpec refEngine _ _).2.2 hs]
  decide

/-! ## The label pattern -/

theorem descend_none {α : Type} (f : Nat → Option α) (lo k : Nat)
    (h : ∀ n, lo ≤ n → n ≤ k → f n = none) : descend f lo k = none := by
  induction k with
  | zero =>
    simp only [descend]
    split
    · exact h 0 (by omega) (le_refl _)
    · rfl
  | succ k ih =>
    simp only [descend]
    split
    · rw [h (k + 1) (by assumption) (le_refl _)]
      simp only [Option.orElse]
      exact ih (fun n h1 h2 => h n h1 (by omega))
    · rfl

theorem descend_top {α : Type} (f : Nat → Option α) (lo k : Nat) (hlo : lo ≤ k)
    (h : ∀ n, lo ≤ n → n < k → f n = none) : descend f lo k = f k := by
  cases k with
  | zero =>
    have : lo = 0 := by omega
    simp [descend, this]
  | succ k =>
    simp only [descend, hlo, if_true]
    cases hf : f (k + 1) with
    | some v => rfl
    | none =>
      simp only [Option.orElse]
      exact descend_none f lo k (fun n h1 h2 => h n h1 (by omega))

theorem descend_below {α : Type} (f : Nat → Option α) (lo k : Nat) (hlo : k < lo) :
    descend f lo k = none := by
  cases k with
  | zero =>
    have : ¬ lo = 0 := by omega
    simp [descend, this]
  | succ k =>
    have : ¬ lo ≤ k + 1 := by omega
    simp [descend, this]

theorem drop_length_takeWhile (p : Char → Bool) (l : Str) :
    l.drop (l.takeWhile p).length = l.dropWhile p := by
  induction l with
  | nil => rfl
  | cons x xs ih =>
    by_cases hx : p x = true
    · simp [List.takeWhile_cons, List.dropWhile_cons, hx, ih]
    · simp [List.takeWhile_cons, List.dropWhile_cons, hx]

theorem take_length_takeWhile (p : Char → Bool) (l : Str) :
    l.take (l.takeWhile p).length = l.takeWhile p := by
  induction l with
  | nil => rfl
  | cons x xs ih =>
    by_cases hx : p x = true
    · simp [List.takeWhile_cons, hx, ih]
    · simp [List.takeWhile_cons, hx]

theorem drop_ne_nil_of_lt_takeWhile (p : Char → Bool) (l : Str) (n : Nat)
    (h : n < (l.takeWhile p).length) :
    ∃ x rest, l.drop n = x :: rest ∧ p x = true := by
  induction l generalizing n with
  | nil => simp at h
  | cons y ys ih =>
    by_cases hy : p y = true
    · cases n with
      | zero => exact ⟨y, ys, rfl, hy⟩
      | succ n =>
        simp only [List.takeWhile_cons, hy, if_true, List.length_cons] at h
        exact ih n (by omega)
    · simp [List.takeWhile_cons, hy] at h

/-- The last part of the pattern, `(.*)$`: it matches when the rest of the input
has no line terminator, and captures that rest. -/
theorem run_group_rest (p : Char → Bool) (pos : Nat) (rest : Str) (opened caps : List Str) :
    run [.openGroup, .star p, .closeGroup, .eol] pos rest opened caps =
      if rest.all p then some (caps.reverse ++ [rest]) else none := by
  simp only [run]
  by_cases hall : rest.all p = true
  · have hk : (rest.takeWhile p).length = rest.length := by
      rw [List.takeWhile_eq_self_iff.mpr]
      intro x hx
      exact (List.all_eq_true.mp hall) x hx
    rw [hk, if_pos hall]
    rw [descend_top _ 0 _ (Nat.zero_le _)]
    · simp
    · intro n _ hn
      have : rest.drop n ≠ [] := by
        intro e
        have := congrArg List.length e
        simp at this
        omega
      simp [this]
  · rw [if_neg hall]
    apply descend_none
    intro n _ hn
    have hlt : (rest.takeWhile p).length < rest.length := by
      rcases Nat.lt_or_ge (rest.takeWhile p).length rest.length with h | h
      · exact h
      · exfalso
        apply hall
        have hle := (List.takeWhile_prefix p (l := rest)).length_le
        have heq : (rest.takeWhile p).length = rest.length := by omega
        have hself : rest.takeWhile p = rest := by
          have := take_length_takeWhile p rest
          rw [heq, List.take_length] at this
          exact this.symm
        rw [List.all_eq_true]
        exact List.takeWhile_eq_self_iff.mp hself
    have : rest.drop n ≠ [] := by
      intro e
      have := congrArg List.length e
      simp at this
      omega
    simp [this]

theorem all_drop_false (p : Char → Bool) (l : Str) (n j : Nat) (hnj : n ≤ j)
    (h : ¬ (l.drop j).all p = true) : ¬ (l.drop n).all p = true := by
  intro hall
  apply h
  rw [List.all_eq_true] at hall ⊢
  intro x hx
  apply hall x
  have : l.drop j = (l.drop n).drop (j - n) := by
    rw [List.drop_drop]
    congr 1
    omega
  rw [this] at hx
  exact List.mem_of_mem_drop hx

/-- The part `\s*(.*)$` of the pattern. -/
theorem run_space_group (q p : Char → Bool) (pos : Nat) (r : Str) (opened caps : List Str) :
    run [.star q, .openGroup, .star p, .closeGroup, .eol] pos r opened caps =
      if (r.dropWhile q).all p then some (caps.reverse ++ [r.dropWhile q]) else none := by
  rw [run]
  simp only [run_group_rest]
  by_cases hall : (r.dropWhile q).all p = true
  · rw [if_pos hall]
    cases hk : (r.takeWhile q).length with
    | zero =>
      have h0 := drop_length_takeWhile q r
      rw [hk] at h0
      simp only [List.drop_zero] at h0
      simp only [descend, if_true, List.drop_zero]
      rw [← h0] at hall
      rw [if_pos hall, ← h0]
    | succ k =>
      have h0 := drop_length_takeWhile q r
      rw [hk] at h0
      simp only [descend, Nat.zero_le, if_true]
      rw [h0, if_pos hall]
      rfl
  · rw [if_neg hall]
    apply descend_none
    intro n _ hn
    have := all_drop_false p r n _ hn (by rw [drop_length_takeWhile]; exact hall)
    rw [if_neg this]

/-- The part `([^\]]+)\]\s*(.*)$` of the pattern, after the opening bracket. -/
theorem run_after_bracket (pos : Nat) (t : Str) :
    run [.openGroup, .plus (· != ']'), .closeGroup, .one (· == ']'), .star isSpace, .openGroup,
        .star (fun c => !isLineTerminator c), .closeGroup, .eol] pos t [] [] =
      (tagMatch ('[' :: t)).map fun cr => [cr.1, cr.2] := by
  rw [run, run]
  -- the candidates below the longest run fail at the closing bracket
  have hbelow : ∀ n, n < (t.takeWhile (· != ']')).length →
      run [.closeGroup, .one (· == ']'), .star isSpace, .openGroup,
        .star (fun c => !isLineTerminator c), .closeGroup, .eol] (pos + n) (t.drop n) [t] [] =
        none := by
    intro n hn
    obtain ⟨x, rest, hx, hpx⟩ := drop_ne_nil_of_lt_takeWhile _ t n hn
    rw [run, hx, run]
    have : ¬ ((x == ']') = true) := by
      intro e
      have : x = ']' := by simpa using e
      subst this
      simp at hpx
    simp [this]
  have htop : run [.closeGroup, .one (· == ']'), .star isSpace, .openGroup,
        .star (fun c => !isLineTerminator c), .closeGroup, .eol]
        (pos + (t.takeWhile (· != ']')).length) (t.drop (t.takeWhile (· != ']')).length) [t] [] =
      match t.dropWhile (· != ']') with
      | ']' :: r =>
        if (r.dropWhile isSpace).all (fun c => !isLineTerminator c)
        then some [t.takeWhile (· != ']'), r.dropWhile isSpace] else none
      | _ => none := by
    rw [run, drop_length_takeWhile]
    have hcap : t.take (t.length - (t.dropWhile (· != ']')).length) = t.takeWhile (· != ']') := by
      have h1 : (t.takeWhile (· != ']')).length + (t.dropWhile (· != ']')).length = t.length := by
        rw [← List.length_append, List.takeWhile_append_dropWhile]
      have h2 : t.length - (t.dropWhile (· != ']')).length = (t.takeWhile (· != ']')).length := by
        omega
      rw [h2, take_length_takeWhile]
    rw [hcap]
    cases hd : t.dropWhile (· != ']') with
    | nil => simp [run]
    | cons y r =>
      by_cases hy : y = ']'
      · subst hy
        rw [run]
        simp only [beq_self_eq_true, if_true]
        rw [run_space_group]
        simp
      · have hy' : (y == ']') = false := by simpa using hy
        rw [run]
        simp only [hy', Bool.false_eq_true, if_false]
        split
        · rename_i r' heq
          injection heq with h1 _
          exact absurd h1 hy
        · rfl
  by_cases hk : 1 ≤ (t.takeWhile (· != ']')).length
  · rw [descend_top _ 1 _ hk (fun n _ hn => hbelow n hn), htop]
    have hne : t.takeWhile (· != ']') ≠ [] := by
      intro e
      rw [e] at hk
      simp at hk
    simp only [tagMatch]
    cases hd : t.dropWhile (· != ']') with
    | nil => rfl
    | cons y r =>
      by_cases hy : y = ']'
      · subst hy
        simp only [hne, ne_eq, not_false_eq_true, true_and]
        split <;> simp_all
      · split
        · rename_i r' heq
          injection heq with h1 _
          exact absurd h1 hy
        · rfl
  · rw [descend_below _ 1 _ (by omega)]
    have he : t.takeWhile (· != ']') = [] := by
      apply List.eq_nil_of_length_eq_zero
      omega
    simp only [tagMatch, he, ne_eq, not_true_eq_false, false_and, if_false]
    split <;> rfl

theorem execFrom_bol_succ (ps : List Pat) (pos : Nat) (s : Str) :
    execFrom (.bol :: ps) (pos + 1) s = none := by
  induction s generalizing pos with
  | nil => simp [execFrom, run]
  | cons c cs ih => simp [execFrom, run, ih, Option.orElse]

theorem execFrom_bol_zero (ps : List Pat) (s : Str) :
    execFrom (.bol :: ps) 0 s = run ps 0 s [] [] := by
  cases s with
  | nil => simp [execFrom, run]
  | cons c cs =>
    simp only [execFrom, run, if_true]
    rw [show (0 : Nat) + 1 = 0 + 1 from rfl, execFrom_bol_succ]
    cases run ps 0 (c :: cs) [] [] <;> rfl

/-- The pattern of `parseCategoryAndName` on a text without leading whitespace:
`exec` finds what `tagMatch` describes. -/
theorem execFrom_tagPattern (s : Str) (h : s.takeWhile isSpace = []) :
    execFrom tagPattern 0 s = (tagMatch s).map fun cr => [cr.1, cr.2] := by
  unfold tagPattern
  rw [execFrom_bol_zero, run, h]
  simp only [List.length_nil, descend, if_true, List.drop_zero, Nat.add_zero]
  cases s with
  | nil => simp [run, tagMatch]
  | cons c t =>
    by_cases hc : c = '['
    · subst hc
      rw [run]
      simp only [beq_self_eq_true, if_true]
      exact run_after_bracket _ t
    · have hc' : (c == '[') = false := by simpa using hc
      rw [run]
      simp only [hc', Bool.false_eq_true, if_false]
      unfold tagMatch
      split
      · rename_i t' heq
        injection heq with h1 _
        exact absurd h1 hc
      · rfl

/-! ## Facts on `trim` -/

theorem trimEnd_eq_rdropWhile (s : Str) : trimEnd s = s.rdropWhile isSpace := rfl

theorem dropWhile_dropWhile (p : Char → Bool) (l : Str) :
    (l.dropWhile p).dropWhile p = l.dropWhile p := by
  induction l with
  | nil => rfl
  | cons x xs ih =>
    by_cases hx : p x = true
    · simp [List.dropWhile_cons, hx, ih]
    · simp [List.dropWhile_cons, hx]

theorem trim_dropWhile (r : Str) : trim (r.dropWhile isSpace) = trim r := by
  unfold trim trimStart
  rw [dropWhile_dropWhile]

theorem takeWhile_trim (s : Str) : (trim s).takeWhile isSpace = [] := by
  unfold trim trimStart
  rw [trimEnd_eq_rdropWhile]
  cases hd : s.dropWhile isSpace with
  | nil => simp [List.rdropWhile]
  | cons x d =>
    have hx : ¬ isSpace x = true := by
      have := List.head_dropWhile_not isSpace s (by rw [hd]; simp)
      simpa [hd] using this
    obtain ⟨w, hw⟩ := List.rdropWhile_prefix isSpace (x :: d)
    cases hr : (x :: d).rdropWhile isSpace with
    | nil => rfl
    | cons y ys =>
      rw [hr] at hw
      injection hw with h1 _
      subst h1
      simp [List.takeWhile_cons, hx]

/-! ## The label parser (C7, C8) -/

theorem takeWhile_dropWhile_of_form (c r : Str) (hc : ∀ x ∈ c, x ≠ ']') :
    (c ++ ']' :: r).takeWhile (· != ']') = c ∧ (c ++ ']' :: r).dropWhile (· != ']') = ']' :: r := by
  induction c with
  | nil => simp [List.takeWhile_cons, List.dropWhile_cons]
  | cons x xs ih =>
    have hx : x ≠ ']' := hc x (List.mem_cons_self _ _)
    have ih' := ih (fun y hy => hc y (List.mem_cons_of_mem _ hy))
    simp [List.takeWhile_cons, List.dropWhile_cons, hx, ih'.1, ih'.2]

theorem tagMatch_of_form (c r : Str) (hne : c ≠ []) (hc : ∀ x ∈ c, x ≠ ']')
    (hr : ∀ x ∈ r.dropWhile isSpace, isLineTerminator x = false) :
    tagMatch ('[' :: c ++ ']' :: r) = some (c, r.dropWhile isSpace) := by
  obtain ⟨h1, h2⟩ := takeWhile_dropWhile_of_form c r hc
  have hall : (r.dropWhile isSpace).all (fun c => !isLineTerminator c) = true := by
    rw [List.all_eq_true]
    intro x hx
    simp [hr x hx]
  simp only [tagMatch, List.cons_append, h1, h2, hne, ne_eq, not_false_eq_true, hall, and_self,
    if_true]

theorem form_of_tagMatch (s c r' : Str) (h : tagMatch s = some (c, r')) :
    ∃ r, s = '[' :: c ++ ']' :: r ∧ c ≠ [] ∧ (∀ x ∈ c, x ≠ ']') ∧ r' = r.dropWhile isSpace := by
  unfold tagMatch at h
  split at h
  · rename_i t
    split at h
    · rename_i r hd
      split at h
      · rename_i hcond
        injection h with h
        injection h with h1 h2
        refine ⟨r, ?_, ?_, ?_, h2.symm⟩
        · rw [← h1, List.cons_append, ← hd, List.takeWhile_append_dropWhile]
        · rw [← h1]; exact hcond.1
        · intro x hx
          rw [← h1] at hx
          have := List.mem_takeWhile_imp hx
          simpa using this
      · cases h
    · cases h
  · cases h

theorem parseCategoryAndName_eq (E : Engine) (raw : Cell) :
    parseCategoryAndName E raw =
      match tagMatch (trim (labelText E raw)) with
      | some (c, r) =>
        { category := if trim c ≠ [] then trim c else defaultCategory,
          name := if trim r ≠ [] then trim r else trim c }
      | none => { category := defaultCategory, name := trim (labelText E raw) } := by
  unfold parseCategoryAndName
  simp only
  rw [execFrom_tagPattern _ (takeWhile_trim _)]
  cases tagMatch (trim (labelText E raw)) with
  | none => rfl
  | some cr => rfl

theorem parseCategoryAndName_of_form (E : Engine) (raw : Cell) (c r : Str)
    (hs : trim (labelText E raw) = '[' :: c ++ ']' :: r) (hne : c ≠ [])
    (hc : ∀ x ∈ c, x ≠ ']') (hr : ∀ x ∈ r.dropWhile isSpace, isLineTerminator x = false) :
    parseCategoryAndName E raw =
      { category := if trim c ≠ [] then trim c else defaultCategory,
        name := if trim r ≠ [] then trim r else trim c } := by
  rw [parseCategoryAndName_eq, hs, tagMatch_of_form c r hne hc hr]
  simp only [trim_dropWhile]

theorem parseCategoryAndName_of_no_form (E : Engine) (raw : Cell)
    (h : ¬ ∃ c r, trim (labelText E raw) = '[' :: c ++ ']' :: r ∧ c ≠ [] ∧ ∀ x ∈ c, x ≠ ']') :
    parseCategoryAndName E raw =
      { category := defaultCategory, name := trim (labelText E raw) } := by
  rw [parseCategoryAndName_eq]
  cases hm : tagMatch (trim (labelText E raw)) with
  | none => rfl
  | some cr =>
    exfalso
    obtain ⟨r, h1, h2, h3, _⟩ := form_of_tagMatch _ cr.1 cr.2 hm
    exact h ⟨cr.1, r, h1, h2, h3⟩

/-- C7, as the claim states it, fails.  The label `[a] b⏎c` has the form `[c]r`
with `c = a`, yet the pattern does not match, because `.` stops at the line
break: the result is the default category and the whole label, not `a` and
`b⏎c`.  The label `[ ] foo` starts with no tag of non-blank content, yet the
name returned is `foo`, not the label itself. -/
theorem parseCategoryAndName_claim_fails :
    parseCategoryAndName refEngine (.str "[a] b\nc".toList) =
        { category := defaultCategory, name := "[a] b\nc".toList } ∧
    parseCategoryAndName refEngine (.str "[a] b\nc".toList) ≠
        { category := trim "a".toList, name := trim " b\nc".toList } ∧
    parseCategoryAndName refEngine (.str "[ ] foo".toList) =
        { category := defaultCategory, name := "foo".toList } ∧
    parseCategoryAndName refEngine (.str "[ ] foo".toList) ≠
        { category := defaultCategory, name := "[ ] foo".toList } := by
  decide

/-- C7, amended.  Let `s` be the trimmed label (empty for `null` and
`undefined`).  If `s` is `[`, a non-empty run `c` of characters other than `]`,
`]`, and a rest `r` that has no line terminator after its leading whitespace,
then: when `trim c` is not empty the category is `trim c` and the name is
`trim r`, or `trim c` when `trim r` is empty; when `trim c` is empty and
`trim r` is not, the category is the default one and the name is `trim r`.  If
`s` does not begin with `[`, a non-empty run without `]`, and `]`, the category
is the default one and the name is `s`.  The parser is a total function. -/
theorem parseCategoryAndName_spec (E : Engine) (raw : Cell) :
    (∀ c r, trim (labelText E raw) = '[' :: c ++ ']' :: r → c ≠ [] → (∀ x ∈ c, x ≠ ']') →
      (∀ x ∈ r.dropWhile isSpace, isLineTerminator x = false) →
      (trim c ≠ [] →
        parseCategoryAndName E raw =
          { category := trim c, name := if trim r ≠ [] then trim r else trim c }) ∧
      (trim c = [] → trim r ≠ [] →
        parseCategoryAndName E raw = { category := defaultCategory, name := trim r })) ∧
    ((¬ ∃ c r, trim (labelText E raw) = '[' :: c ++ ']' :: r ∧ c ≠ [] ∧ ∀ x ∈ c, x ≠ ']') →
      parseCategoryAndName E raw =
        { category := defaultCategory, name := trim (labelText E raw) }) := by
  refine ⟨?_, parseCategoryAndName_of_no_form E raw⟩
  intro c r hs hne hc hr
  have h := parseCategoryAndName_of_form E raw c r hs hne hc hr
  constructor
  · intro htc
    rw [h, if_pos htc]
  · intro htc htr
    rw [h, if_pos htr, if_neg (not_not.mpr htc)]

/-- C7 on the two labels of the specification: `[동물] 강아지` gives category 동물
and name 강아지, and `이름없음` gives the default category and the name 이름없음. -/
theorem parseCategoryAndName_spec_witness :
    parseCategoryAndName refEngine (.str "[동물] 강아지".toList) =
        { category := "동물".toList, name := "강아지".toList } ∧
    parseCategoryAndName refEngine (.str "이름없음".toList) =
        { category := defaultCategory, name := "이름없음".toList } := by
  constructor
  · have h := ((parseCategoryAndName_spec refEngine (.str "[동물] 강아지".toList)).1
      "동물".toList " 강아지".toList (by decide) (by decide) (by decide) (by decide)).1 (by decide)
    rw [h]
    decide
  · have h := (parseCategoryAndName_spec refEngine (.str "이름없음".toList)).2 (by
      rintro ⟨c, r, h, _⟩
      have h0 : trim (labelText refEngine (.str "이름없음".toList)) = "이름없음".toList := by decide
      rw [h0] at h
      injection h with h1 _
      exact absurd h1 (by decide))
    rw [h]
    decide

/-- C8, as the claim states it, fails: the label `[]` does not match the pattern,
which asks for at least one character between the brackets, so its name is `[]`
and differs from its category; the label `[ ]` gets the empty name. -/
theorem parseCategoryAndName_empty_tag :
    parseCategoryAndName refEngine (.str "[]".toList) =
        { category := defaultCategory, name := "[]".toList } ∧
    (parseCategoryAndName refEngine (.str "[]".toList)).name ≠
        (parseCategoryAndName refEngine (.str "[]".toList)).category ∧
    (parseCategoryAndName refEngine (.str "[ ]".toList)).name = [] := by
  decide

/-- C8, amended: for every raw label whose trimmed text is just a tag `[c]`, with
`c` free of `]` and `trim c` not empty, the parser returns the non-empty name
`trim c`, equal to the category returned.  The label `[]` is no tag for the
pattern: it gets the default category and the name `[]`. -/
theorem parseCategoryAndName_only_tag (E : Engine) (raw : Cell) (c : Str)
    (hs : trim (labelText E raw) = '[' :: c ++ [']']) (hc : ∀ x ∈ c, x ≠ ']')
    (htc : trim c ≠ []) :
    parseCategoryAndName E raw = { category := trim c, name := trim c } ∧
    (parseCategoryAndName E raw).name ≠ [] ∧
    (parseCategoryAndName E raw).name = (parseCategoryAndName E raw).category ∧
    parseCategoryAndName E (.str "[]".toList) =
      { category := defaultCategory, name := "[]".toList } := by
  have hne : c ≠ [] := by
    intro e
    rw [e] at htc
    exact htc rfl
  have h := parseCategoryAndName_of_form E raw c [] hs hne hc (by simp)
  rw [if_pos htc] at h
  have h2 : trim ([] : Str) = [] := rfl
  rw [h2] at h
  simp only [ne_eq, not_true_eq_false, if_false] at h
  refine ⟨h, ?_, ?_, ?_⟩
  · rw [h]; exact htc
  · rw [h]
  · rw [parseCategoryAndName_eq]
    rfl

/-- C8 on the label `[동물]`: category and name are both 동물. -/
theorem parseCategoryAndName_only_tag_witness :
    parseCategoryAndName refEngine (.str "[동물]".toList) =
      { category := "동물".toList, name := "동물".toList } := by
  have h := (parseCategoryAndName_only_tag refEngine (.str "[동물]".toList) "동물".toList
    (by decide) (by decide) (by decide)).1
  rw [h]
  decide

/-! ## Normalisation and whitespace -/

theorem placeMark_starter (E : Engine) (c : Char) (l : Str) (hc : E.ccc c = 0) :
    placeMark E c l = c :: l := by
  cases l with
  | nil => rfl
  | cons d ds => simp [placeMark, hc]

theorem placeMark_append_starter (E : Engine) (c s : Char) (l r : Str) (hs : E.ccc s = 0) :
    placeMark E c (l ++ s :: r) = placeMark E c l ++ s :: r := by
  induction l with
  | nil => simp [placeMark, hs]
  | cons d ds ih =>
    rw [List.cons_append, placeMark, placeMark]
    by_cases hd : E.ccc d ≠ 0 ∧ E.ccc d < E.ccc c
    · rw [if_pos hd, if_pos hd, ih, List.cons_append]
    · rw [if_neg hd, if_neg hd, List.cons_append, List.cons_append]

theorem canonicalOrder_append_starter (E : Engine) (a : Str) (s : Char) (r : Str)
    (hs : E.ccc s = 0) :
    canonicalOrder E (a ++ s :: r) = canonicalOrder E a ++ s :: canonicalOrder E r := by
  induction a with
  | nil => simp [canonicalOrder, placeMark_starter E s _ hs]
  | cons x xs ih =>
    rw [List.cons_append, canonicalOrder, canonicalOrder, ih]
    exact placeMark_append_starter E x s _ _ hs

theorem canonicalOrder_starters (E : Engine) (w : Str) (hw : ∀ x ∈ w, E.ccc x = 0) :
    canonicalOrder E w = w := by
  induction w with
  | nil => rfl
  | cons x xs ih =>
    simp only [canonicalOrder]
    rw [ih (fun y hy => hw y (List.mem_cons_of_mem _ hy))]
    exact placeMark_starter E x xs (hw x (List.mem_cons_self _ _))

theorem canonicalOrder_starters_append (E : Engine) (w l : Str) (hw : ∀ x ∈ w, E.ccc x = 0) :
    canonicalOrder E (w ++ l) = w ++ canonicalOrder E l := by
  induction w with
  | nil => rfl
  | cons x xs ih =>
    rw [List.cons_append, canonicalOrder, ih (fun y hy => hw y (List.mem_cons_of_mem _ hy))]
    exact placeMark_starter E x _ (hw x (List.mem_cons_self _ _))

theorem canonicalOrder_append_starters (E : Engine) (l w : Str) (hw : ∀ x ∈ w, E.ccc x = 0) :
    canonicalOrder E (l ++ w) = canonicalOrder E l ++ w := by
  cases w with
  | nil => simp
  | cons s r =>
    rw [canonicalOrder_append_starter E l s r (hw s (List.mem_cons_self _ _)),
      canonicalOrder_starters E r (fun y hy => hw y (List.mem_cons_of_mem _ hy))]

theorem flatMap_decomp_space (E : Engine) (hE : E.SpaceNeutral) (w : Str)
    (hw : ∀ x ∈ w, isSpace x = true) :
    ∀ d ∈ w.flatMap E.decomp, isSpace d = true ∧ E.ccc d = 0 := by
  intro d hd
  obtain ⟨c, hc, hdc⟩ := List.mem_flatMap.mp hd
  exact hE.decomp_space c (hw c hc) d hdc

/-- NFKD of a text between two runs of whitespace. -/
theorem normalizeNFKD_spaces (E : Engine) (hE : E.SpaceNeutral) (w₁ t w₂ : Str)
    (h₁ : ∀ x ∈ w₁, isSpace x = true) (h₂ : ∀ x ∈ w₂, isSpace x = true) :
    normalizeNFKD E (w₁ ++ t ++ w₂) =
      w₁.flatMap E.decomp ++ normalizeNFKD E t ++ w₂.flatMap E.decomp := by
  unfold normalizeNFKD
  rw [List.flatMap_append, List.flatMap_append, List.append_assoc,
    canonicalOrder_starters_append E _ _
      (fun x hx => (flatMap_decomp_space E hE w₁ h₁ x hx).2),
    canonicalOrder_append_starters E _ _
      (fun x hx => (flatMap_decomp_space E hE w₂ h₂ x hx).2),
    List.append_assoc]

theorem removeWs_spaces (w : Str) (hw : ∀ x ∈ w, isSpace x = true) : removeWs w = [] := by
  unfold removeWs
  rw [List.filter_eq_nil_iff]
  intro x hx
  simp [hw x hx]

theorem removeWs_lowerFrom_spaces (E : Engine) (hE : E.SpaceNeutral) (b w : Str)
    (hw : ∀ x ∈ w, isSpace x = true) : removeWs (lowerFrom E b w) = [] := by
  induction w generalizing b with
  | nil => rfl
  | cons c cs ih =>
    simp only [lowerFrom, removeWs_append]
    rw [ih _ (fun y hy => hw y (List.mem_cons_of_mem _ hy)),
      removeWs_spaces _ (hE.lower_space b c cs (hw c (List.mem_cons_self _ _)))]
    rfl

theorem removeWs_lowerFrom_leading (E : Engine) (hE : E.SpaceNeutral) (b w rest : Str)
    (hw : ∀ x ∈ w, isSpace x = true) :
    removeWs (lowerFrom E b (w ++ rest)) = removeWs (lowerFrom E (b ++ w) rest) := by
  induction w generalizing b with
  | nil => simp
  | cons c cs ih =>
    rw [List.cons_append, lowerFrom, removeWs_append,
      removeWs_spaces _ (hE.lower_space b c _ (hw c (List.mem_cons_self _ _))),
      ih _ (fun y hy => hw y (List.mem_cons_of_mem _ hy))]
    simp

theorem removeWs_lowerFrom_context (E : Engine) (hE : E.SpaceNeutral) (w₁ b t w₂ : Str)
    (h₁ : ∀ x ∈ w₁, isSpace x = true) (h₂ : ∀ x ∈ w₂, isSpace x = true) :
    removeWs (lowerFrom E (w₁ ++ b) (t ++ w₂)) = removeWs (lowerFrom E b t) := by
  induction t generalizing b with
  | nil =>
    simp only [List.nil_append, lowerFrom]
    rw [removeWs_lowerFrom_spaces E hE _ w₂ h₂]
    rfl
  | cons c cs ih =>
    rw [List.cons_append, lowerFrom, lowerFrom, removeWs_append, removeWs_append,
      hE.lower_context w₁ w₂ b cs c h₁ h₂, List.append_assoc, ih]

/-- Whitespace around a text does not change its normal form. -/
theorem normKR_spaces (E : Engine) (hE : E.SpaceNeutral) (w₁ t w₂ : Str)
    (h₁ : ∀ x ∈ w₁, isSpace x = true) (h₂ : ∀ x ∈ w₂, isSpace x = true) :
    normKR E (some (w₁ ++ t ++ w₂)) = normKR E (some t) := by
  unfold normKR toLowerCase
  simp only [Option.getD_some]
  rw [normalizeNFKD_spaces E hE w₁ t w₂ h₁ h₂, List.append_assoc,
    removeWs_lowerFrom_leading E hE [] _ _
      (fun x hx => (flatMap_decomp_space E hE w₁ h₁ x hx).1)]
  have := removeWs_lowerFrom_context E hE (w₁.flatMap E.decomp) [] (normalizeNFKD E t)
    (w₂.flatMap E.decomp) (fun x hx => (flatMap_decomp_space E hE w₁ h₁ x hx).1)
    (fun x hx => (flatMap_decomp_space E hE w₂ h₂ x hx).1)
  simpa using this

theorem trim_decomposition (s : Str) :
    ∃ w₁ w₂ : Str, (∀ x ∈ w₁, isSpace x = true) ∧ (∀ x ∈ w₂, isSpace x = true) ∧
      s = w₁ ++ trim s ++ w₂ := by
  have hrev := List.takeWhile_append_dropWhile isSpace (s.dropWhile isSpace).reverse
  have hsplit : s.dropWhile isSpace =
      trimEnd (s.dropWhile isSpace) ++ ((s.dropWhile isSpace).reverse.takeWhile isSpace).reverse := by
    have := congrArg List.reverse hrev
    rw [List.reverse_append, List.reverse_reverse] at this
    exact this.symm
  refine ⟨s.takeWhile isSpace, ((s.dropWhile isSpace).reverse.takeWhile isSpace).reverse,
    ?_, ?_, ?_⟩
  · intro x hx
    exact List.mem_takeWhile_imp hx
  · intro x hx
    exact List.mem_takeWhile_imp (List.mem_reverse.mp hx)
  · unfold trim trimStart
    rw [List.append_assoc, ← hsplit, List.takeWhile_append_dropWhile]

/-- Trimming a text before normalising it makes no difference. -/
theorem normKR_trim (E : Engine) (hE : E.SpaceNeutral) (s : Str) :
    normKR E (some (trim s)) = normKR E (some s) := by
  obtain ⟨w₁, w₂, h₁, h₂, hs⟩ := trim_decomposition s
  conv_rhs => rw [hs]
  exact (normKR_spaces E hE w₁ (trim s) w₂ h₁ h₂).symm

/-! ## The filter (C4) -/

theorem includes_iff (s q : Str) : includes s q = true ↔ q <:+: s := by
  induction s with
  | nil =>
    simp only [includes, List.isEmpty_iff]
    constructor
    · intro h; rw [h]
    · intro h; exact List.eq_nil_of_infix_nil h
  | cons c cs ih =>
    simp only [includes, Bool.or_eq_true, ih, List.infix_cons_iff]
    constructor
    · rintro (h | h)
      · exact Or.inl (List.isPrefixOf_iff_prefix.mp h)
      · exact Or.inr h
    · rintro (h | h)
      · exact Or.inl (List.isPrefixOf_iff_prefix.mpr h)
      · exact Or.inr h

theorem normKR_nil (E : Engine) : normKR E (some []) = [] := rfl

theorem isSpace_cases (c : Char) (h : isSpace c = true) :
    c.toNat = 0x0009 ∨ c.toNat = 0x000B ∨ c.toNat = 0x000C ∨ c.toNat = 0x0020 ∨
    c.toNat = 0x00A0 ∨ c.toNat = 0x1680 ∨ (0x2000 ≤ c.toNat ∧ c.toNat ≤ 0x200A) ∨
    c.toNat = 0x202F ∨ c.toNat = 0x205F ∨ c.toNat = 0x3000 ∨ c.toNat = 0xFEFF ∨
    c.toNat = 0x000A ∨ c.toNat = 0x000D ∨ c.toNat = 0x2028 ∨ c.toNat = 0x2029 := by
  simp only [isSpace, isLineTerminator, Bool.or_eq_true, beq_iff_eq, Bool.and_eq_true,
    decide_eq_true_eq] at h
  omega

theorem refDecomp_space (c : Char) (hc : isSpace c = true) :
    refDecomp c = [' '] ∨ refDecomp c = [c] := by
  have hn := isSpace_cases c hc
  unfold refDecomp
  simp only
  rw [if_neg (by omega)]
  by_cases hB : c.toNat = 0x00A0 ∨ (0x2000 ≤ c.toNat ∧ c.toNat ≤ 0x200A) ∨ c.toNat = 0x202F ∨
      c.toNat = 0x205F ∨ c.toNat = 0x3000
  · rw [if_pos hB]
    exact Or.inl rfl
  · rw [if_neg hB, if_neg (by omega)]
    exact Or.inr rfl

theorem refCcc_space (c : Char) (hc : isSpace c = true) : refCcc c = 0 := by
  have hn := isSpace_cases c hc
  unfold refCcc
  rw [if_neg (by omega), if_neg (by omega)]

theorem refLower_space (c : Char) (hc : isSpace c = true) : refLower c = [c] := by
  have hn := isSpace_cases c hc
  have hA : 'A'.toNat = 65 := by decide
  have hZ : 'Z'.toNat = 90 := by decide
  unfold refLower
  rw [if_neg (by omega)]

/-- The reference engine treats whitespace as the tables of Unicode do. -/
theorem refEngine_spaceNeutral : refEngine.SpaceNeutral := by
  refine ⟨?_, ?_, ?_⟩
  · intro c hc d hd
    have hd' : d ∈ refDecomp c := hd
    rcases refDecomp_space c hc with h | h
    · rw [h, List.mem_singleton] at hd'
      subst hd'
      exact ⟨by decide, by decide⟩
    · rw [h, List.mem_singleton] at hd'
      subst hd'
      exact ⟨hc, refCcc_space d hc⟩
  · intro b c a hc d hd
    have hd' : d ∈ refLower c := hd
    rw [refLower_space c hc, List.mem_singleton] at hd'
    subst hd'
    exact hc
  · intro w₁ w₂ b a c _ _
    rfl

/-- C4: for every catalog, query and category, `filtered` is the subsequence, in
catalog order, of the items whose category is the active one (or any, when the
active category is the pseudo-category for all) and whose normalised name
contains the normalised query; with the pseudo-category the text condition
alone decides; a query of whitespace only, or the empty query, filters nothing
out by text.  The Unicode tables are assumed to treat whitespace as Unicode
does, so that trimming the query before normalising it changes nothing. -/
theorem filtered_spec (E : Engine) (hE : E.SpaceNeutral) (query : Str) (parts : List Part)
    (c : Str) :
    filtered E query parts c =
        parts.filter (fun p => decide ((c = allCategory ∨ p.category = c) ∧
          normKR E (some query) <:+: normKR E (some p.name))) ∧
    filtered E query parts allCategory =
        parts.filter (fun p => decide (normKR E (some query) <:+: normKR E (some p.name))) ∧
    ((∀ x ∈ query, isSpace x = true) →
      filtered E query parts c = parts.filter (fun p => decide (c = allCategory ∨ p.category = c))) := by
  have main : ∀ c : Str, filtered E query parts c =
      parts.filter (fun p => decide ((c = allCategory ∨ p.category = c) ∧
        normKR E (some query) <:+: normKR E (some p.name))) := by
    intro c
    unfold filtered
    simp only [normKR_trim E hE]
    apply List.filter_congr
    intro p _
    have hb : ∀ a b : Str, (a == b) = decide (a = b) := by
      intro a b
      by_cases h : a = b <;> simp [h]
    rw [hb, hb]
    by_cases hq : normKR E (some query) = []
    · simp [hq]
    · have hne : (normKR E (some query)).isEmpty = false := by
        cases h : normKR E (some query) with
        | nil => exact absurd h hq
        | cons _ _ => rfl
      rw [hne, Bool.false_or]
      by_cases hi : normKR E (some query) <:+: normKR E (some p.name)
      · simp [hi, (includes_iff _ _).mpr hi]
      · have : includes (normKR E (some p.name)) (normKR E (some query)) = false := by
          cases hb : includes (normKR E (some p.name)) (normKR E (some query)) with
          | false => rfl
          | true => exact absurd ((includes_iff _ _).mp hb) hi
        simp [hi, this]
  refine ⟨main c, ?_, ?_⟩
  · rw [main]
    apply List.filter_congr
    intro p _
    simp
  · intro hws
    rw [main]
    have hq : normKR E (some query) = [] := by
      have := normKR_spaces E hE query [] [] hws (by simp)
      simpa [normKR_nil] using this
    apply List.filter_congr
    intro p _
    simp [hq]

/-- C4 on the sample catalog with the query `강 아`, which contains a space: only
강아지 is left. -/
theorem filtered_spec_witness :
    refEngine.SpaceNeutral ∧
    filtered refEngine "강 아".toList (initialState refEngine).parts allCategory =
      [{ id := "p1".toList, name := "강아지".toList, category := "동물".toList }] ∧
    filtered refEngine "  ".toList (initialState refEngine).parts "식물".toList =
      [{ id := "p4".toList, name := "토마토".toList, category := "식물".toList },
       { id := "p5".toList, name := "상추".toList, category := "식물".toList }] := by
  refine ⟨refEngine_spaceNeutral, ?_, ?_⟩
  · have h := (filtered_spec refEngine refEngine_spaceNeutral "강 아".toList
      (initialState refEngine).parts allCategory).1
    rw [h]
    decide
  · have h := (filtered_spec refEngine refEngine_spaceNeutral "  ".toList
      (initialState refEngine).parts "식물".toList).2.2 (by decide)
    rw [h]
    decide

/-! ## The normal form for searching (C2) -/

/-- C2, as the claim states it, fails.  In `a`, acute accent, space, dot below
the space keeps the two marks apart, so NFKD leaves them in this order; once the
space is deleted the marks are adjacent and out of canonical order (classes 230
and 220), and normalising again exchanges them. -/
theorem normKR_not_idempotent :
    normKR refEngine (some ['a', Char.ofNat 0x0301, ' ', Char.ofNat 0x0323]) =
        ['a', Char.ofNat 0x0301, Char.ofNat 0x0323] ∧
    normKR refEngine (some (normKR refEngine (some ['a', Char.ofNat 0x0301, ' ', Char.ofNat 0x0323]))) =
        ['a', Char.ofNat 0x0323, Char.ofNat 0x0301] ∧
    normKR refEngine (some (normKR refEngine (some ['a', Char.ofNat 0x0301, ' ', Char.ofNat 0x0323]))) ≠
        normKR refEngine (some ['a', Char.ofNat 0x0301, ' ', Char.ofNat 0x0323]) := by
  decide

theorem flatMap_eq_self (f : Char → Str) (l : Str) (h : ∀ c ∈ l, f c = [c]) :
    l.flatMap f = l := by
  induction l with
  | nil => rfl
  | cons c cs ih =>
    rw [List.flatMap_cons, h c (List.mem_cons_self _ _),
      ih (fun d hd => h d (List.mem_cons_of_mem _ hd))]
    rfl

theorem canonicalOrder_of_ordered (E : Engine) (l : Str) (h : inCanonicalOrder E l = true) :
    canonicalOrder E l = l := by
  induction l with
  | nil => rfl
  | cons c cs ih =>
    cases cs with
    | nil => rfl
    | cons d ds =>
      simp only [inCanonicalOrder, Bool.and_eq_true, Bool.not_eq_true', Bool.and_eq_false_iff,
        bne_eq_false_iff_eq, decide_eq_false_iff_not] at h
      rw [canonicalOrder, ih h.2, placeMark]
      have hcd : ¬ (E.ccc d ≠ 0 ∧ E.ccc d < E.ccc c) := by
        rintro ⟨h1, h2⟩
        rcases h.1 with h3 | h3
        · exact h1 h3
        · exact h3 h2
      rw [if_neg hcd]

theorem lowerFrom_eq_self (E : Engine) (b l : Str)
    (h : ∀ c ∈ l, ∀ b a, E.lowerMap b c a = [c]) : lowerFrom E b l = l := by
  induction l generalizing b with
  | nil => rfl
  | cons c cs ih =>
    rw [lowerFrom, h c (List.mem_cons_self _ _),
      ih _ (fun d hd => h d (List.mem_cons_of_mem _ hd))]
    rfl

theorem mem_placeMark (E : Engine) (c x : Char) (l : Str) :
    x ∈ placeMark E c l ↔ x = c ∨ x ∈ l := by
  induction l with
  | nil => simp [placeMark]
  | cons d ds ih =>
    rw [placeMark]
    by_cases hd : E.ccc d ≠ 0 ∧ E.ccc d < E.ccc c
    · rw [if_pos hd, List.mem_cons, ih, List.mem_cons]
      constructor
      · rintro (h | h | h)
        · exact Or.inr (Or.inl h)
        · exact Or.inl h
        · exact Or.inr (Or.inr h)
      · rintro (h | h | h)
        · exact Or.inr (Or.inl h)
        · exact Or.inl h
        · exact Or.inr (Or.inr h)
    · rw [if_neg hd, List.mem_cons]

theorem mem_canonicalOrder (E : Engine) (x : Char) (l : Str) :
    x ∈ canonicalOrder E l ↔ x ∈ l := by
  induction l with
  | nil => simp [canonicalOrder]
  | cons c cs ih => rw [canonicalOrder, mem_placeMark, ih, List.mem_cons]

theorem mem_lowerFrom (E : Engine) (b l : Str) (d : Char) (h : d ∈ lowerFrom E b l) :
    ∃ b' c a', c ∈ l ∧ d ∈ E.lowerMap b' c a' := by
  induction l generalizing b with
  | nil => simp [lowerFrom] at h
  | cons c cs ih =>
    rw [lowerFrom, List.mem_append] at h
    rcases h with h | h
    · exact ⟨b, c, cs, List.mem_cons_self _ _, h⟩
    · obtain ⟨b', c', a', hc, hd⟩ := ih _ h
      exact ⟨b', c', a', List.mem_cons_of_mem _ hc, hd⟩

/-- The characters of a normal form do not decompose and are their own
lower-case mapping: each is in the lower-case mapping of a character of a
decomposition. -/
theorem normKR_chars (E : Engine) (hE : E.Stable) (x : Option Str) (d : Char)
    (hd : d ∈ normKR E x) : E.decomp d = [d] ∧ ∀ b a, E.lowerMap b d a = [d] := by
  have h1 : d ∈ toLowerCase E (normalizeNFKD E (x.getD [])) := (List.mem_filter.mp hd).1
  obtain ⟨b', c, a', hc, hdc⟩ := mem_lowerFrom E [] _ d h1
  have hc' : c ∈ (x.getD []).flatMap E.decomp := (mem_canonicalOrder E c _).mp hc
  obtain ⟨c0, _, hc0⟩ := List.mem_flatMap.mp hc'
  have hcd : E.decomp c = [c] := hE.decomp_decomp c0 c hc0
  exact ⟨hE.decomp_lower b' c a' hcd d hdc, hE.lower_lower b' c a' d hdc⟩

theorem inCanonicalOrder_of_fixed (E : Engine) (l : Str) (h : canonicalOrder E l = l) :
    inCanonicalOrder E l = true := by
  induction l with
  | nil => rfl
  | cons c cs ih =>
    cases cs with
    | nil => rfl
    | cons d ds =>
      rw [canonicalOrder] at h
      cases hL : canonicalOrder E (d :: ds) with
      | nil =>
        have : d ∈ canonicalOrder E (d :: ds) :=
          (mem_canonicalOrder E d _).mpr (List.mem_cons_self _ _)
        rw [hL] at this
        simp at this
      | cons e es =>
        rw [hL, placeMark] at h
        by_cases he : E.ccc e ≠ 0 ∧ E.ccc e < E.ccc c
        · rw [if_pos he] at h
          injection h with h1 _
          rw [h1] at he
          exact absurd he.2 (Nat.lt_irrefl _)
        · rw [if_neg he] at h
          injection h with _ h2
          rw [h2] at hL
          injection h2 with h3 _
          rw [h3] at he
          have hpair : (!(E.ccc d != 0 && decide (E.ccc d < E.ccc c))) = true := by
            by_cases h0 : E.ccc d = 0
            · simp [h0]
            · have hlt : ¬ E.ccc d < E.ccc c := fun hlt => he ⟨h0, hlt⟩
              simp [hlt]
          rw [inCanonicalOrder, hpair, ih hL]
          rfl

/-- Normalising a normal form again only puts its marks into canonical order. -/
theorem normKR_normKR (E : Engine) (hE : E.Stable) (x : Option Str) :
    normKR E (some (normKR E x)) = canonicalOrder E (normKR E x) := by
  have hch := normKR_chars E hE x
  have hws : ∀ c ∈ normKR E x, isSpace c = false := fun c hc => isSpace_of_mem_removeWs _ c hc
  show removeWs (toLowerCase E (normalizeNFKD E (normKR E x))) = canonicalOrder E (normKR E x)
  unfold normalizeNFKD toLowerCase
  rw [flatMap_eq_self _ _ (fun c hc => (hch c hc).1),
    lowerFrom_eq_self E _ _ (fun c hc => (hch c ((mem_canonicalOrder E c _).mp hc)).2)]
  exact removeWs_eq_self _ (fun c hc => hws c ((mem_canonicalOrder E c _).mp hc))

theorem toNat_ofNat_small (n : Nat) (h : n < 0xD800) : (Char.ofNat n).toNat = n := by
  have hv : n.isValidChar := Or.inl h
  rw [Char.ofNat, dif_pos hv]
  rfl

theorem refDecomp_fixed (d : Char)
    (h : d.toNat < 0xA0 ∨ (0x1100 ≤ d.toNat ∧ d.toNat ≤ 0x11FF)) : refDecomp d = [d] := by
  unfold refDecomp
  simp only
  rw [if_neg (by omega), if_neg (by omega), if_neg (by omega)]

/-- The reference engine is closed as the tables of Unicode are. -/
theorem refEngine_stable : refEngine.Stable := by
  have hA : 'A'.toNat = 65 := rfl
  have hZ : 'Z'.toNat = 90 := rfl
  refine ⟨?_, ?_, ?_⟩
  · intro c d hd
    show refDecomp d = [d]
    have hd' : d ∈ refDecomp c := hd
    unfold refDecomp at hd'
    simp only at hd'
    by_cases h1 : 0xAC00 ≤ c.toNat ∧ c.toNat ≤ 0xD7A3
    · rw [if_pos h1] at hd'
      apply refDecomp_fixed
      have hl := toNat_ofNat_small (0x1100 + (c.toNat - 0xAC00) / 588) (by omega)
      have hv := toNat_ofNat_small (0x1161 + (c.toNat - 0xAC00) % 588 / 28) (by omega)
      have ht := toNat_ofNat_small (0x11A7 + (c.toNat - 0xAC00) % 28) (by omega)
      split at hd'
      · simp only [List.mem_cons, List.mem_singleton, List.not_mem_nil, or_false] at hd'
        rcases hd' with h | h
        · rw [h, hl]; omega
        · rw [h, hv]; omega
      · simp only [List.mem_cons, List.mem_singleton, List.not_mem_nil, or_false] at hd'
        rcases hd' with h | h | h
        · rw [h, hl]; omega
        · rw [h, hv]; omega
        · rw [h, ht]; omega
    · rw [if_neg h1] at hd'
      by_cases h2 : c.toNat = 0x00A0 ∨ (0x2000 ≤ c.toNat ∧ c.toNat ≤ 0x200A) ∨ c.toNat = 0x202F ∨
          c.toNat = 0x205F ∨ c.toNat = 0x3000
      · rw [if_pos h2, List.mem_singleton] at hd'
        subst hd'
        decide
      · rw [if_neg h2] at hd'
        by_cases h3 : 0xFF01 ≤ c.toNat ∧ c.toNat ≤ 0xFF5E
        · rw [if_pos h3, List.mem_singleton] at hd'
          apply refDecomp_fixed
          rw [hd', toNat_ofNat_small (c.toNat - 0xFEE0) (by omega)]
          omega
        · rw [if_neg h3, List.mem_singleton] at hd'
          subst hd'
          unfold refDecomp
          simp only
          rw [if_neg h1, if_neg h2, if_neg h3]
  · intro b c a hc d hd
    show refDecomp d = [d]
    have hd' : d ∈ refLower c := hd
    unfold refLower at hd'
    by_cases h1 : 'A'.toNat ≤ c.toNat ∧ c.toNat ≤ 'Z'.toNat
    · rw [if_pos h1, List.mem_singleton] at hd'
      apply refDecomp_fixed
      rw [hd', toNat_ofNat_small (c.toNat + 32) (by omega)]
      omega
    · rw [if_neg h1, List.mem_singleton] at hd'
      subst hd'
      exact hc
  · intro b c a d hd b' a'
    show refLower d = [d]
    have hd' : d ∈ refLower c := hd
    unfold refLower at hd'
    by_cases h1 : 'A'.toNat ≤ c.toNat ∧ c.toNat ≤ 'Z'.toNat
    · rw [if_pos h1, List.mem_singleton] at hd'
      have hn : d.toNat = c.toNat + 32 := by
        rw [hd', toNat_ofNat_small (c.toNat + 32) (by omega)]
      unfold refLower
      rw [if_neg (by omega)]
    · rw [if_neg h1, List.mem_singleton] at hd'
      subst hd'
      unfold refLower
      rw [if_neg h1]

/-- C2, amended: the normal form never contains whitespace; and, the Unicode
tables being closed under decomposition and lower-casing as those of Unicode
are, normalising a normal form again returns it unchanged exactly when no two
adjacent characters of it are combining marks out of canonical order (a pair
is out of order when the class of the second is not zero and below the class of
the first).  Deleting the whitespace can bring such a pair together. -/
theorem normKR_idempotent_iff (E : Engine) (x : Option Str) :
    (∀ c ∈ normKR E x, isSpace c = false) ∧
    (E.Stable →
      (normKR E (some (normKR E x)) = normKR E x ↔ inCanonicalOrder E (normKR E x) = true)) := by
  refine ⟨fun c hc => isSpace_of_mem_removeWs _ c hc, ?_⟩
  intro hE
  rw [normKR_normKR E hE x]
  exact ⟨inCanonicalOrder_of_fixed E _, canonicalOrder_of_ordered E _⟩

/-- C2 on the text `강 아지 ABC`: its normal form, the conjoining jamo of 강아지
followed by `abc`, is in canonical order, and normalising twice gives the same
as normalising once. -/
theorem normKR_idempotent_iff_witness :
    refEngine.Stable ∧
    normKR refEngine (some (normKR refEngine (some "강 아지 ABC".toList))) =
      normKR refEngine (some "강 아지 ABC".toList) :=
  ⟨refEngine_stable,
    ((normKR_idempotent_iff refEngine (some "강 아지 ABC".toList)).2 refEngine_stable).mpr
      (by decide)⟩

end PartSelector
